import Mathlib

set_option maxHeartbeats 1000000

/-
Verification of the package ingestion and repository metadata pipeline of
.github/scripts/build_repo_script.py. Python strings are modelled as lists
of characters, Python dicts as insertion ordered association lists, and the
per asset ingestion loop as a fold over the asset list. Network transfer and
the ar and tar subprocess calls are outside the model: each asset carries the
outcome of control extraction directly.
-/

namespace DebRepo

/-- Python strings, modelled as lists of characters. -/
abbrev PyStr := List Char

/-- Embed a Lean string literal as a Python string value. -/
def pystr (s : String) : PyStr := s.data

/-- The characters stripped by the Python str.strip family with the default
argument (Unicode whitespace). -/
def isPySpace (c : Char) : Bool :=
  c = ' ' || c = '\t' || c = '\n' || c = '\r' || c = '\x0b' || c = '\x0c' ||
  c = '\x1c' || c = '\x1d' || c = '\x1e' || c = '\x1f' || c = '\x85' || c = '\xa0' ||
  c = '\u1680' || ('\u2000' ≤ c && c ≤ '\u200A') || c = '\u2028' || c = '\u2029' ||
  c = '\u202F' || c = '\u205F' || c = '\u3000'

/-- Python str.rstrip with the default argument. -/
def pyRstrip (s : PyStr) : PyStr := (s.reverse.dropWhile isPySpace).reverse

/-- Python str.lstrip with the default argument. -/
def pyLstrip (s : PyStr) : PyStr := s.dropWhile isPySpace

/-- Python str.strip with the default argument. -/
def pyStrip (s : PyStr) : PyStr := pyLstrip (pyRstrip s)

/-- Python str.split on the newline character: every newline separates two
fields, and the result is never empty. -/
def splitNl : PyStr → List PyStr
  | [] => [[]]
  | c :: cs =>
    if c = '\n' then [] :: splitNl cs
    else
      match splitNl cs with
      | [] => [[c]]
      | t :: ts => (c :: t) :: ts

/-- Python sep.join of a list of strings. -/
def pyJoin (sep : PyStr) : List PyStr → PyStr
  | [] => []
  | [x] => x
  | x :: y :: xs => x ++ sep ++ pyJoin sep (y :: xs)

/-- A Python dict with string keys, as an insertion ordered association list. -/
abbrev PyDict := List (PyStr × PyStr)

/-- Python dict lookup d.get(k), returning the value at a key if present. -/
def alistGet? {α : Type} (m : List (PyStr × α)) (k : PyStr) : Option α :=
  (m.find? (fun p => decide (p.1 = k))).map (fun p => p.2)

/-- Python dict assignment d[k] = v: overwrite in place when the key exists,
keeping its original position, otherwise append the new key at the end. -/
def alistSet {α : Type} (m : List (PyStr × α)) (k : PyStr) (v : α) : List (PyStr × α) :=
  if m.any (fun p => decide (p.1 = k)) then
    m.map (fun p => if p.1 = k then (k, v) else p)
  else m ++ [(k, v)]

/-- Python collections.defaultdict(list) append d[k].append(e): append to the
bucket of the key, creating the bucket on first sight of the key. -/
def defaultAppend {α : Type} (m : List (PyStr × List α)) (k : PyStr) (e : α) :
    List (PyStr × List α) :=
  if m.any (fun p => decide (p.1 = k)) then
    m.map (fun p => if p.1 = k then (p.1, p.2 ++ [e]) else p)
  else m ++ [(k, [e])]

/-- One step of the control parsing loop of extract_deb_control
(build_repo_script.py lines 55 to 71). The state is the field dict together
with the currently open field name; note that a continuation line is only
appended when the open field name is truthy in Python, that is, present and
non empty. -/
def controlStep (st : PyDict × Option PyStr) (rawLine : PyStr) : PyDict × Option PyStr :=
  let line := pyRstrip rawLine
  if line = [] then st
  else if line.head? = some ' ' ∨ line.head? = some '\t' then
    match st.2 with
    | some current_field =>
      if current_field ≠ [] then
        (alistSet st.1 current_field
          (((alistGet? st.1 current_field).getD []) ++ '\n' :: line), st.2)
      else st
    | none => st
  else if ':' ∈ line then
    let field := pyStrip (line.takeWhile (fun c => !(decide (c = ':'))))
    let value := pyStrip ((line.dropWhile (fun c => !(decide (c = ':')))).drop 1)
    (alistSet st.1 field value, some field)
  else st

/-- The control text parser of extract_deb_control (build_repo_script.py lines
51 to 73): split the decoded control text on newlines, fold the line handler
over the lines, and return the resulting field dict. The surrounding archive
unpacking (the ar and tar subprocess calls of lines 21 to 49) is not part of
the model; this function receives the decoded control text. -/
def extract_deb_control (control_content : PyStr) : PyDict :=
  ((splitNl control_content).foldl controlStep ([], none)).1

/-- The required field emission order of _emit_packages_file (lines 214
and 215). -/
def required_fields : List PyStr :=
  [pystr "Package", pystr "Version", pystr "Architecture", pystr "Maintainer",
   pystr "Filename", pystr "Size", pystr "SHA256"]

/-- The optional field emission order of _emit_packages_file (lines 221
and 222). -/
def optional_fields : List PyStr :=
  [pystr "Section", pystr "Priority", pystr "Depends", pystr "Recommends",
   pystr "Suggests", pystr "Conflicts", pystr "Provides", pystr "Replaces",
   pystr "Description"]

/-- The lines contributed by one field of one record in _emit_packages_file
(lines 216 to 231): an absent field contributes nothing, Description is split
into a first line and space prefixed continuation lines, and every other field
is a single line of name, colon, space, value. -/
def emit_field_line (package : PyDict) (f : PyStr) : List PyStr :=
  match alistGet? package f with
  | none => []
  | some v =>
    if f = pystr "Description" then
      (pystr "Description: " ++ (splitNl v).headI) ::
        ((splitNl v).tail.map (fun l => ' ' :: l))
    else
      [f ++ pystr ": " ++ v]

/-- The package_lines list of one record in _emit_packages_file (lines 212 to
231): the required fields in order, then the optional fields in order. -/
def package_lines (package : PyDict) : List PyStr :=
  ((required_fields ++ optional_fields).map (emit_field_line package)).flatten

/-- The text of one record (line 232): the newline join of its field lines. -/
def record_text (package : PyDict) : PyStr := pyJoin (pystr "\n") (package_lines package)

/-- The file content written by _emit_packages_file (line 234): the records
joined by one blank line, plus one trailing newline when any record exists. -/
def emit_packages_content (packages : List PyDict) : PyStr :=
  let packages_content := packages.map record_text
  pyJoin (pystr "\n\n") packages_content ++
    (if packages_content = [] then [] else pystr "\n")

/-- One release asset as consumed by the ingestion loop: its original file
name, its raw bytes, and the outcome of control extraction. The value none
models the failure paths of extract_deb_control in which no control archive
or control file could be unpacked; the ar and tar subprocess calls themselves
are outside the model. -/
structure Asset where
  name : PyStr
  content : List Nat
  controlText : Option PyStr
deriving DecidableEq

/-- The mutable state of download_deb_packages: the per architecture buckets,
the Architecture all bucket, and the printed log. -/
structure RunState where
  packages_by_arch : List (PyStr × List PyDict)
  packages_all : List PyDict
  log : List PyStr
deriving DecidableEq

/-- The optional relational control fields copied verbatim at lines 184
to 186. -/
def optional_control_fields : List PyStr :=
  [pystr "Depends", pystr "Recommends", pystr "Suggests", pystr "Conflicts",
   pystr "Provides", pystr "Replaces"]

/-- The base package entry built at build_repo_script.py lines 172 to 186 from
the control fields, the raw archive bytes and the original asset name. The
function sha256hex abstracts hashlib.sha256(data).hexdigest(); it is applied
to the exact raw bytes handed to this builder. -/
def base_entry (sha256hex : List Nat → PyStr) (asset_name : PyStr) (content : List Nat)
    (control_info : PyDict) (pkg_name version : PyStr) : PyDict :=
  let base : PyDict :=
    [(pystr "Package", pkg_name),
     (pystr "Version", version),
     (pystr "Maintainer", (alistGet? control_info (pystr "Maintainer")).getD (pystr "Unknown")),
     (pystr "Description", (alistGet? control_info (pystr "Description")).getD []),
     (pystr "Section", (alistGet? control_info (pystr "Section")).getD (pystr "misc")),
     (pystr "Priority", (alistGet? control_info (pystr "Priority")).getD (pystr "optional")),
     (pystr "Filename",
       pystr "pool/main/" ++ pkg_name.take 1 ++ pystr "/" ++ pkg_name ++ pystr "/" ++ asset_name),
     (pystr "Size", (Nat.repr content.length).data),
     (pystr "SHA256", sha256hex content)]
  optional_control_fields.foldl
    (fun b f =>
      match alistGet? control_info f with
      | some v => b ++ [(f, v)]
      | none => b) base

/-- The per asset body of the ingestion loop of download_deb_packages
(build_repo_script.py lines 155 to 203). A missing control archive, a missing
Package or Version field, or an empty package name (an index error at
pkg_name[0]) raises inside the try block, so the except branch at line 201
logs the failure and skips the asset, leaving both buckets unchanged. -/
def process_asset (sha256hex : List Nat → PyStr) (st : RunState) (a : Asset) : RunState :=
  match a.controlText with
  | none => { st with log := st.log ++ [pystr "Error processing " ++ a.name] }
  | some txt =>
    let control_info := extract_deb_control txt
    let arch := pyStrip ((alistGet? control_info (pystr "Architecture")).getD (pystr "all"))
    match alistGet? control_info (pystr "Package") with
    | none => { st with log := st.log ++ [pystr "Error processing " ++ a.name] }
    | some pkg_name =>
      if pkg_name = [] then { st with log := st.log ++ [pystr "Error processing " ++ a.name] }
      else
        match alistGet? control_info (pystr "Version") with
        | none => { st with log := st.log ++ [pystr "Error processing " ++ a.name] }
        | some version =>
          let entry := base_entry sha256hex a.name a.content control_info pkg_name version
          if arch = pystr "all" then
            { st with
              packages_all :=
                st.packages_all ++ [alistSet entry (pystr "Architecture") (pystr "all")],
              log := st.log ++ [pystr "Added " ++ pkg_name] }
          else
            { st with
              packages_by_arch :=
                defaultAppend st.packages_by_arch arch (alistSet entry (pystr "Architecture") arch),
              log := st.log ++ [pystr "Added " ++ pkg_name] }

/-- The ingestion loop of download_deb_packages over a given asset sequence.
The network fetch, release selection and asset filtering that produce the
sequence are outside the model. -/
def download_deb_packages (sha256hex : List Nat → PyStr) (assets : List Asset) : RunState :=
  assets.foldl (process_asset sha256hex) ⟨[], [], []⟩

/-- One emitted index: its architecture token, the records of the emitted
Packages file, and the text content of that file. -/
structure EmittedIndex where
  arch : PyStr
  records : List PyDict
  content : PyStr
deriving DecidableEq

/-- generate_packages_files (build_repo_script.py lines 243 to 265): the all
bucket is always emitted, then each discovered architecture bucket is emitted
with its own records followed by every Architecture all record, skipping an
architecture whose combined list is empty and not already active; the function
also returns the active architecture list. -/
def generate_packages_files (packages_by_arch : List (PyStr × List PyDict))
    (packages_all : List PyDict) : List EmittedIndex × List PyStr :=
  let start : List EmittedIndex × List PyStr :=
    ([⟨pystr "all", packages_all, emit_packages_content packages_all⟩],
     if packages_all = [] then [] else [pystr "all"])
  packages_by_arch.foldl
    (fun acc p =>
      let combined := p.2 ++ packages_all
      if combined = [] ∧ ¬ (p.1 ∈ acc.2) then acc
      else (acc.1 ++ [⟨p.1, combined, emit_packages_content combined⟩], acc.2 ++ [p.1]))
    start

/-- The emitted index for one architecture token, if any. -/
def findEm (ems : List EmittedIndex) (t : PyStr) : Option EmittedIndex :=
  ems.find? (fun em => decide (em.arch = t))

/-- The value the control parser reconstructs for a description d that was
serialized by the index writer: the first line of d stripped, followed by each
non whitespace subsequent line of d with one leading space added and trailing
whitespace removed, joined by newlines; whitespace only lines are dropped. -/
def descRoundTrip (d : PyStr) : PyStr :=
  pyStrip (splitNl d).headI ++
    ((splitNl d).tail.filterMap
      (fun l => if pyRstrip l = [] then none else some ('\n' :: ' ' :: pyRstrip l))).flatten

/-- A physical line that opens a field in the control parser: non blank after
trailing whitespace strip, not a continuation line, and containing a colon. -/
def isFieldLine (l : PyStr) : Bool :=
  let r := pyRstrip l
  !(decide (r = [])) && !(decide (r.head? = some ' ')) && !(decide (r.head? = some '\t')) &&
    decide (':' ∈ r)

/-- The field names of a list of emitted record lines, in order: continuation
lines (starting with a space) contribute nothing, any other line contributes
the text before its first colon. -/
def field_names_of (lines : List PyStr) : List PyStr :=
  lines.filterMap
    (fun l => if l.head? = some ' ' then none
              else some (l.takeWhile (fun c => !(decide (c = ':')))))

/-- The architecture tokens reported by the control metadata of a list of
assets, in order, with the Architecture all default applied. -/
def archTokens (assets : List Asset) : List PyStr :=
  assets.filterMap (fun a => a.controlText.map
    (fun txt => pyStrip ((alistGet? (extract_deb_control txt) (pystr "Architecture")).getD (pystr "all"))))

/-- A sample digest function for concrete runs. The pipeline theorems hold for
every digest function; the witnesses instantiate it with this one. -/
def exSha : List Nat → PyStr := fun bs => pystr "h" ++ (Nat.repr bs.length).data

/-- A sample Architecture all asset, the foo package of the end to end
scenario of the specification. -/
def exFoo : Asset :=
  ⟨pystr "foo_1.0_all.deb", [1, 2, 3],
   some (pystr "Package: foo\nVersion: 1.0\nArchitecture: all\nDescription: demo")⟩

/-- A sample arm64 asset, the bar package of the end to end scenario of the
specification. -/
def exBar : Asset :=
  ⟨pystr "bar_2.0_arm64.deb", [4, 5],
   some (pystr "Package: bar\nVersion: 2.0\nArchitecture: arm64")⟩

/-- A sample asset whose control data lacks the Version field. -/
def exNoVer : Asset :=
  ⟨pystr "bad_0.1.deb", [9], some (pystr "Package: bad\nArchitecture: mips")⟩

/-- The run state of the end to end scenario: one Architecture all package and
one arm64 package. -/
def exRun : RunState := download_deb_packages exSha [exFoo, exBar]

/-- The emitted indexes of the end to end scenario. -/
def exEms : List EmittedIndex :=
  (generate_packages_files exRun.packages_by_arch exRun.packages_all).1

/-- A complete package record whose description carries an embedded newline,
used to exercise the description round trip. -/
def c1package : PyDict :=
  [(pystr "Package", pystr "foo"), (pystr "Version", pystr "1.0"),
   (pystr "Architecture", pystr "all"), (pystr "Maintainer", pystr "m"),
   (pystr "Filename", pystr "pool/main/f/foo/foo_1.0_all.deb"), (pystr "Size", pystr "3"),
   (pystr "SHA256", pystr "aa"), (pystr "Section", pystr "misc"),
   (pystr "Priority", pystr "optional"), (pystr "Description", pystr "a\nb")]

/-- The emitted arm64 index of the end to end scenario, written through the
union of the arm64 bucket with the all bucket. -/
def exEmArm : EmittedIndex :=
  ⟨pystr "arm64",
   (alistGet? exRun.packages_by_arch (pystr "arm64")).getD [] ++ exRun.packages_all,
   emit_packages_content ((alistGet? exRun.packages_by_arch (pystr "arm64")).getD []
     ++ exRun.packages_all)⟩

end DebRepo

namespace DebRepo

theorem splitNl_ne_nil (s : PyStr) : splitNl s ≠ [] := by
  cases s with
  | nil => simp [splitNl]
  | cons c cs =>
    unfold splitNl
    split
    · exact List.cons_ne_nil _ _
    · split
      · exact List.cons_ne_nil _ _
      · exact List.cons_ne_nil _ _

theorem splitNl_append_nl (a b : PyStr) :
    splitNl (a ++ '\n' :: b) = splitNl a ++ splitNl b := by
  induction a with
  | nil => simp [splitNl]
  | cons c cs ih =>
    by_cases hc : c = '\n'
    · subst hc
      show splitNl ('\n' :: (cs ++ '\n' :: b)) = splitNl ('\n' :: cs) ++ splitNl b
      rw [splitNl, splitNl, if_pos rfl, if_pos rfl, ih]
      rfl
    · rcases List.exists_cons_of_ne_nil (splitNl_ne_nil cs) with ⟨t, ts, h⟩
      show splitNl (c :: (cs ++ '\n' :: b)) = splitNl (c :: cs) ++ splitNl b
      rw [splitNl, splitNl, if_neg hc, if_neg hc, ih, h]
      simp

theorem splitNl_no_nl : ∀ {a : PyStr}, '\n' ∉ a → splitNl a = [a] := by
  intro a
  induction a with
  | nil => intro _; rfl
  | cons c cs ih =>
    intro h
    have hc : ¬ (c = '\n') := fun hcc => h (hcc ▸ List.mem_cons_self c cs)
    have hcs : '\n' ∉ cs := fun hm => h (List.mem_cons_of_mem c hm)
    simp only [splitNl, if_neg hc, ih hcs]

theorem mem_splitNl_no_nl : ∀ {s l : PyStr}, l ∈ splitNl s → '\n' ∉ l := by
  intro s
  induction s with
  | nil =>
    intro l h
    simp [splitNl] at h
    subst h
    simp
  | cons c cs ih =>
    intro l h
    by_cases hc : c = '\n'
    · subst hc
      rw [splitNl, if_pos rfl] at h
      rcases List.mem_cons.mp h with h1 | h1
      · subst h1; simp
      · exact ih h1
    · rcases List.exists_cons_of_ne_nil (splitNl_ne_nil cs) with ⟨t, ts, hcs⟩
      simp only [splitNl, if_neg hc, hcs, List.mem_cons] at h
      rcases h with h | h
      · subst h
        intro hmem
        rcases List.mem_cons.mp hmem with h1 | h1
        · exact hc h1.symm
        · exact ih (hcs ▸ List.mem_cons_self t ts) h1
      · exact ih (hcs ▸ List.mem_cons_of_mem t h)

theorem flatten_map_splitNl {L : List PyStr} (h : ∀ l ∈ L, '\n' ∉ l) :
    (L.map splitNl).flatten = L := by
  induction L with
  | nil => rfl
  | cons x xs ih =>
    simp only [List.map_cons, List.flatten_cons]
    rw [splitNl_no_nl (h x (List.mem_cons_self x xs)),
        ih (fun l hl => h l (List.mem_cons_of_mem x hl))]
    rfl

theorem splitNl_pyJoin (parts : List PyStr) (h : parts ≠ []) :
    splitNl (pyJoin (pystr "\n") parts) = (parts.map splitNl).flatten := by
  induction parts with
  | nil => exact absurd rfl h
  | cons x xs ih =>
    cases xs with
    | nil => simp [pyJoin]
    | cons y ys =>
      have hstep : pyJoin (pystr "\n") (x :: y :: ys) = x ++ '\n' :: pyJoin (pystr "\n") (y :: ys) := by
        show x ++ pystr "\n" ++ pyJoin (pystr "\n") (y :: ys) = _
        rw [List.append_assoc]
        rfl
      rw [hstep, splitNl_append_nl, ih (List.cons_ne_nil y ys)]
      simp

theorem dropWhile_append_nil {α : Type} {p : α → Bool} {a : List α} (b : List α)
    (h : a.dropWhile p = []) : (a ++ b).dropWhile p = b.dropWhile p := by
  induction a with
  | nil => rfl
  | cons c cs ih =>
    by_cases hp : p c
    · simp only [List.cons_append, List.dropWhile_cons, hp, if_true]
      exact ih (by simpa [List.dropWhile_cons, hp] using h)
    · simp [List.dropWhile_cons, hp] at h

theorem dropWhile_append_ne {α : Type} {p : α → Bool} {a : List α} (b : List α)
    (h : a.dropWhile p ≠ []) : (a ++ b).dropWhile p = a.dropWhile p ++ b := by
  induction a with
  | nil => exact absurd rfl h
  | cons c cs ih =>
    by_cases hp : p c
    · simp only [List.cons_append, List.dropWhile_cons, hp, if_true]
      exact ih (by simpa [List.dropWhile_cons, hp] using h)
    · simp [List.dropWhile_cons, hp]

theorem pyRstrip_append (a b : PyStr) :
    pyRstrip (a ++ b) = if pyRstrip b = [] then pyRstrip a else a ++ pyRstrip b := by
  by_cases h : pyRstrip b = []
  · have hb : b.reverse.dropWhile isPySpace = [] := by
      have h2 := h
      unfold pyRstrip at h2
      exact List.reverse_eq_nil_iff.mp h2
    rw [if_pos h]
    unfold pyRstrip
    rw [List.reverse_append, dropWhile_append_nil _ hb]
  · have hb : b.reverse.dropWhile isPySpace ≠ [] := by
      intro hb
      apply h
      unfold pyRstrip
      rw [hb]
      rfl
    rw [if_neg h]
    unfold pyRstrip
    rw [List.reverse_append, dropWhile_append_ne _ hb, List.reverse_append,
        List.reverse_reverse]

theorem pyRstrip_eq_nil_iff (s : PyStr) : pyRstrip s = [] ↔ ∀ c ∈ s, isPySpace c := by
  unfold pyRstrip
  simp [List.reverse_eq_nil_iff, List.dropWhile_eq_nil_iff]

theorem pyRstrip_prefix (s : PyStr) :
    ∃ t, s = pyRstrip s ++ t ∧ ∀ c ∈ t, isPySpace c := by
  refine ⟨(s.reverse.takeWhile isPySpace).reverse, ?_, ?_⟩
  · conv_lhs => rw [← s.reverse_reverse]
    conv_lhs => rw [← List.takeWhile_append_dropWhile (p := isPySpace) (l := s.reverse)]
    rw [List.reverse_append]
    rfl
  · intro c hc
    rw [List.mem_reverse] at hc
    exact List.mem_takeWhile_imp hc

theorem head?_pyRstrip {s : PyStr} (h : pyRstrip s ≠ []) :
    (pyRstrip s).head? = s.head? := by
  obtain ⟨t, hs, _⟩ := pyRstrip_prefix s
  conv_rhs => rw [hs]
  cases hr : pyRstrip s with
  | nil => exact absurd hr h
  | cons c cs => simp [hr]

theorem dropWhile_idem_my {α : Type} (p : α → Bool) (l : List α) :
    (l.dropWhile p).dropWhile p = l.dropWhile p := by
  induction l with
  | nil => rfl
  | cons c cs ih =>
    by_cases hp : p c
    · simp [List.dropWhile_cons, hp, ih]
    · simp [List.dropWhile_cons, hp]

theorem pyRstrip_rstrip (s : PyStr) : pyRstrip (pyRstrip s) = pyRstrip s := by
  unfold pyRstrip
  rw [List.reverse_reverse, dropWhile_idem_my]

theorem pyStrip_rstrip (s : PyStr) : pyStrip (pyRstrip s) = pyStrip s := by
  unfold pyStrip
  rw [pyRstrip_rstrip]

theorem pyRstrip_cons_space {c : Char} (hc : isPySpace c) (l : PyStr) :
    pyRstrip (c :: l) = if pyRstrip l = [] then [] else c :: pyRstrip l := by
  have h1 : pyRstrip [c] = [] := by
    unfold pyRstrip
    simp [List.dropWhile_cons, hc]
  have h2 := pyRstrip_append [c] l
  simp only [List.singleton_append] at h2
  rw [h2]
  by_cases h : pyRstrip l = []
  · simp [h, h1]
  · simp [h]

theorem pyStrip_cons_space {c : Char} (hc : isPySpace c) (l : PyStr) :
    pyStrip (c :: l) = pyStrip l := by
  unfold pyStrip
  rw [pyRstrip_cons_space hc]
  by_cases h : pyRstrip l = []
  · simp [h, pyLstrip]
  · simp [h, pyLstrip, List.dropWhile_cons, hc]

theorem takeWhile_no_colon_append {F t : PyStr} (h : ∀ c ∈ F, c ≠ ':') :
    (F ++ ':' :: t).takeWhile (fun c => !(decide (c = ':'))) = F := by
  induction F with
  | nil => simp [List.takeWhile_cons]
  | cons c cs ih =>
    have hc : ¬ (c = ':') := h c (List.mem_cons_self c cs)
    simp only [List.cons_append, List.takeWhile_cons, hc, decide_False, Bool.not_false, if_true]
    rw [ih (fun x hx => h x (List.mem_cons_of_mem c hx))]

theorem dropWhile_no_colon_append {F t : PyStr} (h : ∀ c ∈ F, c ≠ ':') :
    (F ++ ':' :: t).dropWhile (fun c => !(decide (c = ':'))) = ':' :: t := by
  induction F with
  | nil => simp [List.dropWhile_cons]
  | cons c cs ih =>
    have hc : ¬ (c = ':') := h c (List.mem_cons_self c cs)
    simp only [List.cons_append, List.dropWhile_cons, hc, decide_False, Bool.not_false, if_true]
    exact ih (fun x hx => h x (List.mem_cons_of_mem c hx))

theorem find?_append_my {α : Type} (p : α → Bool) (a b : List α) :
    (a ++ b).find? p = match a.find? p with
      | some x => some x
      | none => b.find? p := by
  induction a with
  | nil => simp
  | cons c cs ih =>
    by_cases hp : p c
    · simp [List.find?_cons, hp]
    · simp only [List.cons_append, List.find?_cons, hp]
      simpa [hp] using ih

theorem find?_map_key_preserving {α : Type} {f : α → α} {p : α → Bool}
    (h : ∀ x, p (f x) = p x) (l : List α) : (l.map f).find? p = (l.find? p).map f := by
  induction l with
  | nil => rfl
  | cons c cs ih =>
    by_cases hp : p c
    · simp [List.find?_cons, hp, h c]
    · simp only [List.map_cons, List.find?_cons, h c, hp]
      exact ih

theorem any_eq_keys {α : Type} (m : List (PyStr × α)) (k : PyStr) :
    m.any (fun p => decide (p.1 = k)) = true ↔ k ∈ m.map Prod.fst := by
  rw [List.any_eq_true]
  constructor
  · rintro ⟨p, hp, hpk⟩
    rw [List.mem_map]
    exact ⟨p, hp, by simpa using hpk⟩
  · intro hk
    rcases List.mem_map.mp hk with ⟨p, hp, he⟩
    exact ⟨p, hp, by simp [he]⟩

theorem alistGet?_eq_none_iff {α : Type} (m : List (PyStr × α)) (k : PyStr) :
    alistGet? m k = none ↔ k ∉ m.map Prod.fst := by
  unfold alistGet?
  constructor
  · intro h hk
    rcases List.mem_map.mp hk with ⟨p, hp, he⟩
    have hnone : m.find? (fun p => decide (p.1 = k)) = none := by
      cases hf : m.find? (fun p => decide (p.1 = k)) with
      | none => rfl
      | some q => rw [hf] at h; simp at h
    rw [List.find?_eq_none] at hnone
    exact hnone p hp (by simp [he])
  · intro hk
    have hnone : m.find? (fun p => decide (p.1 = k)) = none := by
      rw [List.find?_eq_none]
      intro x hx hpx
      exact hk (List.mem_map.mpr ⟨x, hx, by simpa using hpx⟩)
    rw [hnone]
    rfl

theorem find?_isSome_of_any {α : Type} {m : List (PyStr × α)} {k : PyStr}
    (h : m.any (fun p => decide (p.1 = k)) = true) :
    ∃ q, m.find? (fun p => decide (p.1 = k)) = some q ∧ q.1 = k := by
  have hsome : (m.find? (fun p => decide (p.1 = k))).isSome := by
    rw [List.find?_isSome]
    rcases List.any_eq_true.mp h with ⟨p, hp, hpk⟩
    exact ⟨p, hp, hpk⟩
  rcases Option.isSome_iff_exists.mp hsome with ⟨q, hq⟩
  refine ⟨q, hq, ?_⟩
  have := List.find?_some hq
  simpa using this

theorem find?_none_of_not_any {α : Type} {m : List (PyStr × α)} {k : PyStr}
    (h : ¬ (m.any (fun p => decide (p.1 = k)) = true)) :
    m.find? (fun p => decide (p.1 = k)) = none := by
  rw [List.find?_eq_none]
  intro x hx hpx
  exact h (List.any_eq_true.mpr ⟨x, hx, hpx⟩)

theorem alistSet_ne_nil {α : Type} (m : List (PyStr × α)) (k : PyStr) (v : α) :
    alistSet m k v ≠ [] := by
  unfold alistSet
  by_cases h : m.any (fun p => decide (p.1 = k))
  · rw [if_pos h]
    intro hmap
    rw [List.map_eq_nil_iff] at hmap
    subst hmap
    simp at h
  · rw [if_neg h]
    simp

theorem alistGet?_set_self {α : Type} (m : List (PyStr × α)) (k : PyStr) (v : α) :
    alistGet? (alistSet m k v) k = some v := by
  unfold alistSet
  by_cases h : m.any (fun p => decide (p.1 = k))
  · rw [if_pos h]
    unfold alistGet?
    rw [find?_map_key_preserving (f := fun p => if p.1 = k then (k, v) else p)]
    · rcases find?_isSome_of_any h with ⟨q, hq, hq1⟩
      rw [hq]
      simp [hq1]
    · intro x
      by_cases hx : x.1 = k
      · simp [hx]
      · simp [hx]
  · rw [if_neg h]
    unfold alistGet?
    rw [find?_append_my, find?_none_of_not_any h]
    simp

theorem alistGet?_set_ne {α : Type} (m : List (PyStr × α)) {k k2 : PyStr} (v : α)
    (hne : k2 ≠ k) : alistGet? (alistSet m k v) k2 = alistGet? m k2 := by
  unfold alistSet
  by_cases h : m.any (fun p => decide (p.1 = k))
  · rw [if_pos h]
    unfold alistGet?
    rw [find?_map_key_preserving (f := fun p => if p.1 = k then (k, v) else p)]
    · cases hf : m.find? (fun p => decide (p.1 = k2)) with
      | none => simp
      | some q =>
        have hq1 : q.1 = k2 := by
          have := List.find?_some hf
          simpa using this
        have hqk : ¬ (q.1 = k) := by
          rw [hq1]
          exact hne
        simp [hqk]
    · intro x
      by_cases hx : x.1 = k
      · simp [hx, hne.symm]
      · simp [hx]
  · rw [if_neg h]
    unfold alistGet?
    rw [find?_append_my]
    cases hf : m.find? (fun p => decide (p.1 = k2)) with
    | none => simp [hne.symm]
    | some q => simp

theorem alistGet?_defaultAppend_self {α : Type} (m : List (PyStr × List α)) (k : PyStr) (e : α) :
    alistGet? (defaultAppend m k e) k = some ((alistGet? m k).getD [] ++ [e]) := by
  unfold defaultAppend
  by_cases h : m.any (fun p => decide (p.1 = k))
  · rw [if_pos h]
    unfold alistGet?
    rw [find?_map_key_preserving (f := fun p => if p.1 = k then (p.1, p.2 ++ [e]) else p)]
    · rcases find?_isSome_of_any h with ⟨q, hq, hq1⟩
      rw [hq]
      simp [hq1]
    · intro x
      by_cases hx : x.1 = k
      · simp [hx]
      · simp [hx]
  · rw [if_neg h]
    unfold alistGet?
    rw [find?_append_my, find?_none_of_not_any h]
    simp

theorem alistGet?_defaultAppend_ne {α : Type} (m : List (PyStr × List α)) {k k2 : PyStr} (e : α)
    (hne : k2 ≠ k) : alistGet? (defaultAppend m k e) k2 = alistGet? m k2 := by
  unfold defaultAppend
  by_cases h : m.any (fun p => decide (p.1 = k))
  · rw [if_pos h]
    unfold alistGet?
    rw [find?_map_key_preserving (f := fun p => if p.1 = k then (p.1, p.2 ++ [e]) else p)]
    · cases hf : m.find? (fun p => decide (p.1 = k2)) with
      | none => simp
      | some q =>
        have hq1 : q.1 = k2 := by
          have := List.find?_some hf
          simpa using this
        have hqk : ¬ (q.1 = k) := by
          rw [hq1]
          exact hne
        simp [hqk]
    · intro x
      by_cases hx : x.1 = k
      · simp [hx]
      · simp [hx]
  · rw [if_neg h]
    unfold alistGet?
    rw [find?_append_my]
    cases hf : m.find? (fun p => decide (p.1 = k2)) with
    | none => simp [hne.symm]
    | some q => simp

theorem defaultAppend_keys {α : Type} (m : List (PyStr × List α)) (k : PyStr) (e : α) :
    (defaultAppend m k e).map Prod.fst =
      if m.any (fun p => decide (p.1 = k)) then m.map Prod.fst else m.map Prod.fst ++ [k] := by
  unfold defaultAppend
  by_cases h : m.any (fun p => decide (p.1 = k))
  · rw [if_pos h, if_pos h, List.map_map]
    apply List.map_congr_left
    intro p _
    by_cases hp : p.1 = k
    · simp [hp]
    · simp [hp]
  · rw [if_neg h, if_neg h]
    simp

theorem mem_defaultAppend {α : Type} {m : List (PyStr × List α)} {k : PyStr} {e : α}
    {P : PyStr → List α → Prop}
    (hm : ∀ p ∈ m, P p.1 p.2) (hupd : ∀ b, P k b → P k (b ++ [e])) (hnew : P k [e]) :
    ∀ q ∈ defaultAppend m k e, P q.1 q.2 := by
  intro q hq
  unfold defaultAppend at hq
  by_cases h : m.any (fun p => decide (p.1 = k))
  · rw [if_pos h] at hq
    rcases List.mem_map.mp hq with ⟨p, hp, hqe⟩
    by_cases hpk : p.1 = k
    · rw [if_pos hpk] at hqe
      subst hqe
      simp only
      rw [hpk]
      exact hupd p.2 (hpk ▸ hm p hp)
    · rw [if_neg hpk] at hqe
      subst hqe
      exact hm p hp
  · rw [if_neg h] at hq
    rcases List.mem_append.mp hq with hq | hq
    · exact hm q hq
    · rw [List.mem_singleton] at hq
      subst hq
      exact hnew

theorem controlStep_blank {st : PyDict × Option PyStr} {l : PyStr} (h : pyRstrip l = []) :
    controlStep st l = st := by
  simp [controlStep, h]

theorem pyRstrip_field_line (F v : PyStr) :
    pyRstrip (F ++ ':' :: v) = F ++ ':' :: pyRstrip v := by
  have h1 : pyRstrip ([':'] : PyStr) = [':'] := by decide
  have hcolon : pyRstrip (F ++ [':']) = F ++ [':'] := by
    rw [pyRstrip_append F [':'], h1]
    simp
  have hsplit : F ++ ':' :: v = (F ++ [':']) ++ v := by simp
  rw [hsplit, pyRstrip_append]
  by_cases h : pyRstrip v = []
  · rw [if_pos h, hcolon, h]
  · rw [if_neg h]
    simp

theorem head?_append_ne_nil {α : Type} {a : List α} (b : List α) (h : a ≠ []) :
    (a ++ b).head? = a.head? := by
  cases a with
  | nil => exact absurd rfl h
  | cons c cs => rfl

theorem controlStep_field {st : PyDict × Option PyStr} {F v : PyStr}
    (hF : F ≠ []) (hFsp : F.head? ≠ some ' ') (hFtb : F.head? ≠ some '\t')
    (hFc : ∀ c ∈ F, c ≠ ':') :
    controlStep st (F ++ ':' :: v) =
      (alistSet st.1 (pyStrip F) (pyStrip v), some (pyStrip F)) := by
  have hline := pyRstrip_field_line F v
  have hne : F ++ ':' :: pyRstrip v ≠ [] := by
    cases F <;> simp
  have hhead : (F ++ ':' :: pyRstrip v).head? = F.head? := head?_append_ne_nil _ hF
  have hmem : ':' ∈ F ++ ':' :: pyRstrip v :=
    List.mem_append.mpr (Or.inr (List.mem_cons_self _ _))
  simp only [controlStep, hline]
  rw [if_neg hne, if_neg ?hcont, if_pos hmem,
      takeWhile_no_colon_append hFc, dropWhile_no_colon_append hFc]
  case hcont =>
    intro hor
    rcases hor with hsp | htb
    · rw [hhead] at hsp
      exact hFsp hsp
    · rw [hhead] at htb
      exact hFtb htb
  rw [List.drop_succ_cons, List.drop_zero, pyStrip_rstrip]

theorem controlStep_cont {m : PyDict} {K l : PyStr} (hK : K ≠ [])
    (hh : l.head? = some ' ' ∨ l.head? = some '\t') :
    controlStep (m, some K) l =
      if pyRstrip l = [] then (m, some K)
      else (alistSet m K (((alistGet? m K).getD []) ++ '\n' :: pyRstrip l), some K) := by
  by_cases hb : pyRstrip l = []
  · rw [if_pos hb]
    exact controlStep_blank hb
  · rw [if_neg hb]
    have hhead : (pyRstrip l).head? = l.head? := head?_pyRstrip hb
    simp only [controlStep]
    rw [if_neg hb, if_pos (by rw [hhead]; exact hh)]
    simp [hK]

theorem fold_cont_block {K : PyStr} (hK : K ≠ []) :
    ∀ (conts : List PyStr) (m : PyDict) (v : PyStr),
      (∀ l ∈ conts, l.head? = some ' ' ∨ l.head? = some '\t') →
      alistGet? m K = some v →
      ∃ m2, List.foldl controlStep (m, some K) conts = (m2, some K) ∧
        alistGet? m2 K = some (v ++ (conts.filterMap
          (fun l => if pyRstrip l = [] then none else some ('\n' :: pyRstrip l))).flatten) := by
  intro conts
  induction conts with
  | nil =>
    intro m v _ hv
    exact ⟨m, rfl, by simpa using hv⟩
  | cons l ls ih =>
    intro m v hc hv
    have hl := hc l (List.mem_cons_self l ls)
    rw [List.foldl_cons, controlStep_cont hK hl]
    by_cases hb : pyRstrip l = []
    · rw [if_pos hb]
      rcases ih m v (fun x hx => hc x (List.mem_cons_of_mem l hx)) hv with ⟨m2, heq, hval⟩
      refine ⟨m2, heq, ?_⟩
      rw [hval]
      simp [List.filterMap_cons, hb]
    · rw [if_neg hb, hv]
      have hm1 : alistGet? (alistSet m K (v ++ '\n' :: pyRstrip l)) K
          = some (v ++ '\n' :: pyRstrip l) := alistGet?_set_self m K _
      rcases ih _ _ (fun x hx => hc x (List.mem_cons_of_mem l hx)) hm1 with ⟨m2, heq, hval⟩
      refine ⟨m2, by simpa using heq, ?_⟩
      rw [hval]
      simp [List.filterMap_cons, hb]

theorem filterMap_congr_my {α β : Type} {f g : α → Option β} :
    ∀ {l : List α}, (∀ a ∈ l, f a = g a) → l.filterMap f = l.filterMap g := by
  intro l
  induction l with
  | nil => intro _; rfl
  | cons c cs ih =>
    intro h
    rw [List.filterMap_cons, List.filterMap_cons, h c (List.mem_cons_self c cs),
        ih (fun a ha => h a (List.mem_cons_of_mem c ha))]

theorem fold_desc_suffix (st : PyDict × Option PyStr) (x : PyStr) (xs : List PyStr) :
    alistGet? (List.foldl controlStep st
        ((pystr "Description: " ++ x) :: (xs.map (fun l => ' ' :: l) ++ [[]]))).1
      (pystr "Description")
    = some (pyStrip x ++ (xs.filterMap
        (fun l => if pyRstrip l = [] then none else some ('\n' :: ' ' :: pyRstrip l))).flatten) := by
  have hshape : pystr "Description: " ++ x = pystr "Description" ++ ':' :: ' ' :: x := rfl
  have hstep : controlStep st (pystr "Description: " ++ x)
      = (alistSet st.1 (pystr "Description") (pyStrip x), some (pystr "Description")) := by
    rw [hshape, controlStep_field (by decide) (by decide) (by decide) (by decide)]
    have hstripK : pyStrip (pystr "Description") = pystr "Description" := by decide
    rw [hstripK, pyStrip_cons_space (by decide)]
  rw [List.foldl_cons, hstep]
  have hget : alistGet? (alistSet st.1 (pystr "Description") (pyStrip x)) (pystr "Description")
      = some (pyStrip x) := alistGet?_set_self _ _ _
  have hK : pystr "Description" ≠ [] := by decide
  rcases fold_cont_block hK (xs.map (fun l => ' ' :: l)) _ _
      (by
        intro l hl
        rcases List.mem_map.mp hl with ⟨y, _, hy⟩
        subst hy
        exact Or.inl rfl) hget with ⟨m2, heq, hval⟩
  rw [List.foldl_append, heq]
  have hlast : List.foldl controlStep (m2, some (pystr "Description")) [[]]
      = (m2, some (pystr "Description")) := by
    rw [List.foldl_cons, controlStep_blank (show pyRstrip [] = [] from rfl)]
    rfl
  rw [hlast]
  rw [hval]
  have hfm : List.filterMap (fun l => if pyRstrip l = [] then none else some ('\n' :: pyRstrip l))
      (List.map (fun l => ' ' :: l) xs)
      = List.filterMap (fun l => if pyRstrip l = [] then none else some ('\n' :: ' ' :: pyRstrip l)) xs := by
    rw [List.filterMap_map]
    apply filterMap_congr_my
    intro l _
    show (if pyRstrip (' ' :: l) = [] then none else some ('\n' :: pyRstrip (' ' :: l))) = _
    rw [pyRstrip_cons_space (by decide : isPySpace ' ')]
    by_cases hb : pyRstrip l = []
    · rw [if_pos hb]
      simp [hb]
    · rw [if_neg hb]
      simp [hb]
  rw [hfm]

theorem emit_single (p : PyDict) :
    emit_packages_content [p] = record_text p ++ '\n' :: [] := by
  show pyJoin (pystr "\n\n") [record_text p]
      ++ (if ([record_text p] : List PyStr) = [] then [] else pystr "\n") = _
  rw [if_neg (by simp)]
  rfl

theorem desc_round_trip_general (p : PyDict) (d : PyStr)
    (hd : alistGet? p (pystr "Description") = some d) :
    alistGet? (extract_deb_control (emit_packages_content [p])) (pystr "Description")
      = some (descRoundTrip d) := by
  rcases List.exists_cons_of_ne_nil (splitNl_ne_nil d) with ⟨x, xs, hxd⟩
  have hx_mem : x ∈ splitNl d := hxd ▸ List.mem_cons_self x xs
  have hxs_sub : ∀ l ∈ xs, l ∈ splitNl d := fun l hl => hxd ▸ List.mem_cons_of_mem x hl
  have hpl : package_lines p
      = ((required_fields ++ optional_fields.dropLast).map (emit_field_line p)).flatten
        ++ ((pystr "Description: " ++ x) :: (xs.map (fun l => ' ' :: l))) := by
    unfold package_lines
    have hfields : required_fields ++ optional_fields
        = (required_fields ++ optional_fields.dropLast) ++ [pystr "Description"] := rfl
    rw [hfields, List.map_append, List.flatten_append]
    congr 1
    have hefl : emit_field_line p (pystr "Description")
        = (pystr "Description: " ++ x) :: (xs.map (fun l => ' ' :: l)) := by
      simp [emit_field_line, hd, hxd]
    simp [hefl]
  have hnonl : ∀ l ∈ (pystr "Description: " ++ x) :: (xs.map (fun l => ' ' :: l)), '\n' ∉ l := by
    intro l hl
    rcases List.mem_cons.mp hl with hl | hl
    · subst hl
      intro hmem
      rcases List.mem_append.mp hmem with hm | hm
      · revert hm
        decide
      · exact mem_splitNl_no_nl hx_mem hm
    · rcases List.mem_map.mp hl with ⟨y, hy, hye⟩
      subst hye
      intro hmem
      rcases List.mem_cons.mp hmem with hm | hm
      · exact absurd hm (by decide)
      · exact mem_splitNl_no_nl (hxs_sub y hy) hm
  have hlines : splitNl (emit_packages_content [p])
      = (((required_fields ++ optional_fields.dropLast).map (emit_field_line p)).flatten.map
          splitNl).flatten
        ++ ((pystr "Description: " ++ x) :: (xs.map (fun l => ' ' :: l) ++ [[]])) := by
    rw [emit_single p, splitNl_append_nl]
    unfold record_text
    rw [hpl, splitNl_pyJoin _ (by simp), List.map_append, List.flatten_append,
        flatten_map_splitNl hnonl]
    simp [splitNl]
  show alistGet? ((splitNl (emit_packages_content [p])).foldl controlStep ([], none)).1
      (pystr "Description") = _
  rw [hlines, List.foldl_append, fold_desc_suffix]
  have hdrt : descRoundTrip d = pyStrip x ++ (xs.filterMap
      (fun l => if pyRstrip l = [] then none else some ('\n' :: ' ' :: pyRstrip l))).flatten := by
    unfold descRoundTrip
    rw [hxd]
    rfl
  rw [hdrt]

theorem controlStep_fst_ne_nil {m : PyDict} {cf : Option PyStr} {l : PyStr} (h : m ≠ []) :
    (controlStep (m, cf) l).1 ≠ [] := by
  by_cases h1 : pyRstrip l = []
  · rw [controlStep_blank h1]
    exact h
  · simp only [controlStep]
    rw [if_neg h1]
    by_cases h2 : (pyRstrip l).head? = some ' ' ∨ (pyRstrip l).head? = some '\t'
    · rw [if_pos h2]
      cases cf with
      | none => exact h
      | some K =>
        by_cases h3 : K = []
        · simpa [h3] using h
        · simpa [h3] using alistSet_ne_nil m K ((alistGet? m K).getD [] ++ '
' :: pyRstrip l)
    · rw [if_neg h2]
      by_cases h4 : ':' ∈ pyRstrip l
      · rw [if_pos h4]
        exact alistSet_ne_nil _ _ _
      · rw [if_neg h4]
        exact h

theorem controlStep_init_no_field {l : PyStr} (h : isFieldLine l = false) :
    controlStep ([], none) l = ([], none) := by
  by_cases h1 : pyRstrip l = []
  · exact controlStep_blank h1
  · simp only [controlStep]
    rw [if_neg h1]
    by_cases h2 : (pyRstrip l).head? = some ' ' ∨ (pyRstrip l).head? = some '\t'
    · rw [if_pos h2]
    · rw [if_neg h2]
      by_cases h4 : ':' ∈ pyRstrip l
      · exfalso
        push_neg at h2
        have htrue : isFieldLine l = true := by
          unfold isFieldLine
          simp [h1, h2.1, h2.2, h4]
        rw [htrue] at h
        cases h
      · rw [if_neg h4]

theorem controlStep_field_line_ne_nil {st : PyDict × Option PyStr} {l : PyStr}
    (h : isFieldLine l = true) : (controlStep st l).1 ≠ [] := by
  simp only [isFieldLine, Bool.and_eq_true, Bool.not_eq_true', decide_eq_false_iff_not,
    decide_eq_true_eq] at h
  obtain ⟨⟨⟨h1, h2⟩, h3⟩, h4⟩ := h
  simp only [controlStep]
  rw [if_neg h1, if_neg (by intro hor; rcases hor with ho | ho; exact h2 ho; exact h3 ho),
      if_pos h4]
  exact alistSet_ne_nil _ _ _

theorem fold_fst_ne_nil : ∀ (ls : List PyStr) (st : PyDict × Option PyStr),
    st.1 ≠ [] → (ls.foldl controlStep st).1 ≠ [] := by
  intro ls
  induction ls with
  | nil =>
    intro st h
    exact h
  | cons l ls ih =>
    intro st h
    rw [List.foldl_cons]
    obtain ⟨m, cf⟩ := st
    exact ih _ (controlStep_fst_ne_nil h)

theorem extract_lines_empty_iff : ∀ (lines : List PyStr),
    ((lines.foldl controlStep ([], none)).1 = [] ↔ ∀ l ∈ lines, isFieldLine l = false) := by
  intro lines
  induction lines with
  | nil => simp
  | cons l ls ih =>
    by_cases hl : isFieldLine l = true
    · constructor
      · intro hfold
        exfalso
        rw [List.foldl_cons] at hfold
        exact fold_fst_ne_nil ls _ (controlStep_field_line_ne_nil hl) hfold
      · intro hall
        have := hall l (List.mem_cons_self l ls)
        rw [hl] at this
        cases this
    · have hl2 : isFieldLine l = false := by
        revert hl
        cases isFieldLine l <;> simp
      rw [List.foldl_cons, controlStep_init_no_field hl2]
      constructor
      · intro hfold x hx
        rcases List.mem_cons.mp hx with hx | hx
        · subst hx
          exact hl2
        · exact (ih.mp hfold) x hx
      · intro hall
        exact ih.mpr (fun x hx => hall x (List.mem_cons_of_mem l hx))

theorem process_asset_skip (sha256hex : List Nat → PyStr) (st : RunState) (a : Asset)
    {txt : PyStr} (hctl : a.controlText = some txt)
    (hmiss : alistGet? (extract_deb_control txt) (pystr "Package") = none ∨
             alistGet? (extract_deb_control txt) (pystr "Version") = none) :
    process_asset sha256hex st a =
      { st with log := st.log ++ [pystr "Error processing " ++ a.name] } := by
  unfold process_asset
  rcases hmiss with hm | hm
  · simp only [hctl, hm]
  · cases hp : alistGet? (extract_deb_control txt) (pystr "Package") with
    | none => simp only [hctl, hp]
    | some pkg =>
      by_cases hpe : pkg = []
      · simp [hctl, hp, hpe]
      · simp only [hctl, hp, hm, if_neg hpe]

theorem process_asset_success (sha256hex : List Nat → PyStr) (st : RunState) (a : Asset)
    {txt pkg ver : PyStr} (hctl : a.controlText = some txt)
    (hp : alistGet? (extract_deb_control txt) (pystr "Package") = some pkg)
    (hpe : pkg ≠ [])
    (hv : alistGet? (extract_deb_control txt) (pystr "Version") = some ver) :
    process_asset sha256hex st a =
      (if pyStrip ((alistGet? (extract_deb_control txt) (pystr "Architecture")).getD (pystr "all"))
          = pystr "all" then
        { st with
          packages_all := st.packages_all ++
            [alistSet (base_entry sha256hex a.name a.content (extract_deb_control txt) pkg ver)
              (pystr "Architecture") (pystr "all")],
          log := st.log ++ [pystr "Added " ++ pkg] }
      else
        { st with
          packages_by_arch := defaultAppend st.packages_by_arch
            (pyStrip ((alistGet? (extract_deb_control txt) (pystr "Architecture")).getD (pystr "all")))
            (alistSet (base_entry sha256hex a.name a.content (extract_deb_control txt) pkg ver)
              (pystr "Architecture")
              (pyStrip ((alistGet? (extract_deb_control txt) (pystr "Architecture")).getD (pystr "all")))),
          log := st.log ++ [pystr "Added " ++ pkg] }) := by
  unfold process_asset
  simp only [hctl, hp, hv, if_neg hpe]

theorem process_asset_log (sha256hex : List Nat → PyStr) (st : RunState) (a : Asset) :
    ∃ msgs, (process_asset sha256hex st a).log = st.log ++ msgs := by
  unfold process_asset
  dsimp only
  repeat' split
  all_goals exact ⟨_, rfl⟩

theorem process_asset_buckets_congr (sha256hex : List Nat → PyStr) (a : Asset)
    (st st2 : RunState)
    (hby : st.packages_by_arch = st2.packages_by_arch)
    (hall : st.packages_all = st2.packages_all) :
    (process_asset sha256hex st a).packages_by_arch
      = (process_asset sha256hex st2 a).packages_by_arch ∧
    (process_asset sha256hex st a).packages_all
      = (process_asset sha256hex st2 a).packages_all := by
  unfold process_asset
  dsimp only
  repeat' split
  all_goals simp [hby, hall]

theorem fold_buckets_congr (sha256hex : List Nat → PyStr) :
    ∀ (assets : List Asset) (st st2 : RunState),
    st.packages_by_arch = st2.packages_by_arch → st.packages_all = st2.packages_all →
    (assets.foldl (process_asset sha256hex) st).packages_by_arch
      = (assets.foldl (process_asset sha256hex) st2).packages_by_arch ∧
    (assets.foldl (process_asset sha256hex) st).packages_all
      = (assets.foldl (process_asset sha256hex) st2).packages_all := by
  intro assets
  induction assets with
  | nil =>
    intro st st2 h1 h2
    exact ⟨h1, h2⟩
  | cons a as ih =>
    intro st st2 h1 h2
    rw [List.foldl_cons, List.foldl_cons]
    obtain ⟨hb, ha⟩ := process_asset_buckets_congr sha256hex a st st2 h1 h2
    exact ih _ _ hb ha

theorem fold_log_mono (sha256hex : List Nat → PyStr) :
    ∀ (assets : List Asset) (st : RunState),
    ∃ msgs, (assets.foldl (process_asset sha256hex) st).log = st.log ++ msgs := by
  intro assets
  induction assets with
  | nil =>
    intro st
    exact ⟨[], by simp⟩
  | cons a as ih =>
    intro st
    rw [List.foldl_cons]
    rcases process_asset_log sha256hex st a with ⟨m1, h1⟩
    rcases ih (process_asset sha256hex st a) with ⟨m2, h2⟩
    exact ⟨m1 ++ m2, by rw [h2, h1, List.append_assoc]⟩

theorem process_asset_invariant (sha256hex : List Nat → PyStr) (st : RunState) (a : Asset)
    (h1 : ∀ p ∈ st.packages_by_arch, p.1 ≠ pystr "all" ∧ p.2 ≠ [] ∧
      ∀ e ∈ p.2, alistGet? e (pystr "Architecture") = some p.1)
    (h2 : ∀ e ∈ st.packages_all, alistGet? e (pystr "Architecture") = some (pystr "all"))
    (h3 : ((st.packages_by_arch.map Prod.fst).Nodup)) :
    (∀ p ∈ (process_asset sha256hex st a).packages_by_arch, p.1 ≠ pystr "all" ∧ p.2 ≠ [] ∧
      ∀ e ∈ p.2, alistGet? e (pystr "Architecture") = some p.1) ∧
    (∀ e ∈ (process_asset sha256hex st a).packages_all,
      alistGet? e (pystr "Architecture") = some (pystr "all")) ∧
    (((process_asset sha256hex st a).packages_by_arch.map Prod.fst).Nodup) := by
  cases hctl : a.controlText with
  | none =>
    simp only [process_asset, hctl]
    exact ⟨h1, h2, h3⟩
  | some txt =>
    cases hp : alistGet? (extract_deb_control txt) (pystr "Package") with
    | none =>
      simp only [process_asset, hctl, hp]
      exact ⟨h1, h2, h3⟩
    | some pkg =>
      by_cases hpe : pkg = []
      · simp only [process_asset, hctl, hp, hpe, if_pos rfl, if_true]
        exact ⟨h1, h2, h3⟩
      · cases hv : alistGet? (extract_deb_control txt) (pystr "Version") with
        | none =>
          simp only [process_asset, hctl, hp, hv, if_neg hpe]
          exact ⟨h1, h2, h3⟩
        | some ver =>
          rw [process_asset_success sha256hex st a hctl hp hpe hv]
          by_cases harch :
            pyStrip ((alistGet? (extract_deb_control txt) (pystr "Architecture")).getD (pystr "all"))
              = pystr "all"
          · rw [if_pos harch]
            refine ⟨h1, ?_, h3⟩
            intro e he
            rcases List.mem_append.mp he with he | he
            · exact h2 e he
            · rw [List.mem_singleton] at he
              subst he
              exact alistGet?_set_self _ _ _
          · rw [if_neg harch]
            refine ⟨?_, h2, ?_⟩
            · apply mem_defaultAppend
                (P := fun t b => t ≠ pystr "all" ∧ b ≠ [] ∧
                  ∀ e ∈ b, alistGet? e (pystr "Architecture") = some t)
              · exact h1
              · intro b hb
                refine ⟨harch, by simp, ?_⟩
                intro e he
                rcases List.mem_append.mp he with he | he
                · exact hb.2.2 e he
                · rw [List.mem_singleton] at he
                  subst he
                  exact alistGet?_set_self _ _ _
              · refine ⟨harch, by simp, ?_⟩
                intro e he
                rw [List.mem_singleton] at he
                subst he
                exact alistGet?_set_self _ _ _
            · rw [defaultAppend_keys]
              by_cases hany : st.packages_by_arch.any (fun p => decide (p.1 =
                  pyStrip ((alistGet? (extract_deb_control txt)
                    (pystr "Architecture")).getD (pystr "all")))) = true
              · rw [if_pos hany]
                exact h3
              · rw [if_neg hany]
                rw [List.nodup_append]
                refine ⟨h3, List.nodup_singleton _, ?_⟩
                intro x hx hx2
                rw [List.mem_singleton] at hx2
                subst hx2
                exact hany ((any_eq_keys _ _).mpr hx)

theorem fold_invariant (sha256hex : List Nat → PyStr) :
    ∀ (assets : List Asset) (st : RunState),
    (∀ p ∈ st.packages_by_arch, p.1 ≠ pystr "all" ∧ p.2 ≠ [] ∧
      ∀ e ∈ p.2, alistGet? e (pystr "Architecture") = some p.1) →
    (∀ e ∈ st.packages_all, alistGet? e (pystr "Architecture") = some (pystr "all")) →
    ((st.packages_by_arch.map Prod.fst).Nodup) →
    (∀ p ∈ (assets.foldl (process_asset sha256hex) st).packages_by_arch,
      p.1 ≠ pystr "all" ∧ p.2 ≠ [] ∧
      ∀ e ∈ p.2, alistGet? e (pystr "Architecture") = some p.1) ∧
    (∀ e ∈ (assets.foldl (process_asset sha256hex) st).packages_all,
      alistGet? e (pystr "Architecture") = some (pystr "all")) ∧
    (((assets.foldl (process_asset sha256hex) st).packages_by_arch.map Prod.fst).Nodup) := by
  intro assets
  induction assets with
  | nil =>
    intro st h1 h2 h3
    exact ⟨h1, h2, h3⟩
  | cons a as ih =>
    intro st h1 h2 h3
    rw [List.foldl_cons]
    obtain ⟨g1, g2, g3⟩ := process_asset_invariant sha256hex st a h1 h2 h3
    exact ih _ g1 g2 g3

theorem download_invariant (sha256hex : List Nat → PyStr) (assets : List Asset) :
    (∀ p ∈ (download_deb_packages sha256hex assets).packages_by_arch,
      p.1 ≠ pystr "all" ∧ p.2 ≠ [] ∧
      ∀ e ∈ p.2, alistGet? e (pystr "Architecture") = some p.1) ∧
    (∀ e ∈ (download_deb_packages sha256hex assets).packages_all,
      alistGet? e (pystr "Architecture") = some (pystr "all")) ∧
    (((download_deb_packages sha256hex assets).packages_by_arch.map Prod.fst).Nodup) := by
  unfold download_deb_packages
  exact fold_invariant sha256hex assets ⟨[], [], []⟩ (by simp) (by simp) (by simp)

theorem generate_go (packages_all : List PyDict) :
    ∀ (l : List (PyStr × List PyDict)) (ems : List EmittedIndex) (act : List PyStr),
    (l.map Prod.fst).Nodup →
    (∀ p ∈ l, p.1 ∈ act → p.2 ++ packages_all ≠ []) →
    l.foldl (fun acc p =>
      let combined := p.2 ++ packages_all
      if combined = [] ∧ ¬ (p.1 ∈ acc.2) then acc
      else (acc.1 ++ [⟨p.1, combined, emit_packages_content combined⟩], acc.2 ++ [p.1]))
      (ems, act)
    = (ems ++ l.filterMap (fun p => if p.2 ++ packages_all = [] then none
        else some ⟨p.1, p.2 ++ packages_all, emit_packages_content (p.2 ++ packages_all)⟩),
       act ++ l.filterMap (fun p => if p.2 ++ packages_all = [] then none else some p.1)) := by
  intro l
  induction l with
  | nil =>
    intro ems act _ _
    simp
  | cons p rest ih =>
    intro ems act hN h2
    rw [List.foldl_cons]
    have hNtail : (rest.map Prod.fst).Nodup := by
      rw [List.map_cons, List.nodup_cons] at hN
      exact hN.2
    have hNhead : p.1 ∉ rest.map Prod.fst := by
      rw [List.map_cons, List.nodup_cons] at hN
      exact hN.1
    by_cases hcomb : p.2 ++ packages_all = []
    · have hnotact : ¬ (p.1 ∈ act) := fun hmem => h2 p (List.mem_cons_self p rest) hmem hcomb
      rw [if_pos ⟨hcomb, hnotact⟩]
      rw [ih ems act hNtail (fun q hq hmem => h2 q (List.mem_cons_of_mem p hq) hmem)]
      rw [List.filterMap_cons, List.filterMap_cons]
      simp only [hcomb, if_pos rfl, if_true]
    · rw [if_neg (fun hand => hcomb hand.1)]
      dsimp only
      refine Eq.trans (ih (ems ++ [⟨p.1, p.2 ++ packages_all,
          emit_packages_content (p.2 ++ packages_all)⟩]) (act ++ [p.1]) hNtail ?hact) ?_
      case hact =>
        intro q hq hmem
        rcases List.mem_append.mp hmem with hm | hm
        · exact h2 q (List.mem_cons_of_mem p hq) hm
        · rw [List.mem_singleton] at hm
          exfalso
          exact hNhead (hm ▸ List.mem_map.mpr ⟨q, hq, rfl⟩)
      rw [List.filterMap_cons, List.filterMap_cons]
      simp only [hcomb, if_neg hcomb, List.append_assoc]
      rfl

theorem generate_eq (packages_by_arch : List (PyStr × List PyDict)) (packages_all : List PyDict)
    (hN : (packages_by_arch.map Prod.fst).Nodup) :
    generate_packages_files packages_by_arch packages_all
      = (⟨pystr "all", packages_all, emit_packages_content packages_all⟩ ::
          packages_by_arch.filterMap (fun p => if p.2 ++ packages_all = [] then none
            else some ⟨p.1, p.2 ++ packages_all, emit_packages_content (p.2 ++ packages_all)⟩),
         (if packages_all = [] then [] else [pystr "all"]) ++
          packages_by_arch.filterMap (fun p => if p.2 ++ packages_all = [] then none
            else some p.1)) := by
  unfold generate_packages_files
  dsimp only
  rw [generate_go packages_all packages_by_arch _ _ hN ?hact]
  case hact =>
    intro p hp hmem
    by_cases hall : packages_all = []
    · rw [if_pos hall] at hmem
      simp at hmem
    · intro hcomb
      exact hall ((List.append_eq_nil.mp hcomb).2)
  rfl

theorem filterMap_all_some {α β : Type} (f : α → β) :
    ∀ (l : List α), l.filterMap (fun x => some (f x)) = l.map f := by
  intro l
  induction l with
  | nil => rfl
  | cons c cs ih => simp [List.filterMap_cons, ih]

theorem find?_map_em (packages_all : List PyDict) (t : PyStr) :
    ∀ (l : List (PyStr × List PyDict)),
    ((l.map (fun p => (⟨p.1, p.2 ++ packages_all,
        emit_packages_content (p.2 ++ packages_all)⟩ : EmittedIndex)))).find?
        (fun em => decide (em.arch = t))
    = (l.find? (fun p => decide (p.1 = t))).map
        (fun p => ⟨p.1, p.2 ++ packages_all, emit_packages_content (p.2 ++ packages_all)⟩) := by
  intro l
  induction l with
  | nil => rfl
  | cons p rest ih =>
    by_cases hp : p.1 = t
    · simp [List.find?_cons, hp]
    · simp only [List.map_cons, List.find?_cons]
      have h1 : (decide ((⟨p.1, p.2 ++ packages_all,
          emit_packages_content (p.2 ++ packages_all)⟩ : EmittedIndex).arch = t)) = false := by
        simpa using hp
      have h2 : (decide (p.1 = t)) = false := by simpa using hp
      simp only [h1, h2]
      exact ih

theorem findEm_generate (packages_by_arch : List (PyStr × List PyDict))
    (packages_all : List PyDict) (t : PyStr)
    (hN : (packages_by_arch.map Prod.fst).Nodup)
    (hne : t ≠ pystr "all")
    (hnonempty : ∀ p ∈ packages_by_arch, p.2 ≠ []) :
    findEm ((generate_packages_files packages_by_arch packages_all).1) t
      = (alistGet? packages_by_arch t).map
          (fun pkgs => ⟨t, pkgs ++ packages_all,
            emit_packages_content (pkgs ++ packages_all)⟩) := by
  rw [generate_eq packages_by_arch packages_all hN]
  unfold findEm
  rw [List.find?_cons]
  have hfirst : (decide ((⟨pystr "all", packages_all,
      emit_packages_content packages_all⟩ : EmittedIndex).arch = t)) = false := by
    simpa using fun h => hne h.symm
  rw [hfirst]
  simp only [Bool.false_eq_true, if_false]
  have hfm : packages_by_arch.filterMap (fun p => if p.2 ++ packages_all = [] then none
      else some (⟨p.1, p.2 ++ packages_all,
        emit_packages_content (p.2 ++ packages_all)⟩ : EmittedIndex))
      = packages_by_arch.map (fun p => ⟨p.1, p.2 ++ packages_all,
        emit_packages_content (p.2 ++ packages_all)⟩) := by
    rw [filterMap_congr_my (g := fun p => some (⟨p.1, p.2 ++ packages_all,
        emit_packages_content (p.2 ++ packages_all)⟩ : EmittedIndex))]
    · exact filterMap_all_some _ _
    · intro p hp
      rw [if_neg]
      intro hcomb
      exact hnonempty p hp (List.append_eq_nil.mp hcomb).1
  rw [hfm, find?_map_em]
  unfold alistGet?
  cases hf : packages_by_arch.find? (fun p => decide (p.1 = t)) with
  | none => rfl
  | some q =>
    have hq1 : q.1 = t := by
      have := List.find?_some hf
      simpa using this
    simp [hq1]

theorem filterMap_none_my {α β : Type} : ∀ (l : List α),
    (l.filterMap (fun _ => (none : Option β))) = [] := by
  intro l
  induction l with
  | nil => rfl
  | cons c cs ih => simp [List.filterMap_cons, ih]

theorem field_names_of_append (a b : List PyStr) :
    field_names_of (a ++ b) = field_names_of a ++ field_names_of b := by
  unfold field_names_of
  exact List.filterMap_append a b _

theorem field_names_of_emit_field_line (p : PyDict) (f : PyStr)
    (hne : f ≠ []) (hsp : f.head? ≠ some ' ') (hc : ∀ c ∈ f, c ≠ ':') :
    field_names_of (emit_field_line p f)
      = if (alistGet? p f).isSome then [f] else [] := by
  cases hv : alistGet? p f with
  | none => simp [field_names_of, emit_field_line, hv]
  | some v =>
    simp only [Option.isSome_some, if_true]
    unfold emit_field_line
    rw [hv]
    dsimp only
    by_cases hdesc : f = pystr "Description"
    · rw [if_pos hdesc]
      unfold field_names_of
      rw [List.filterMap_cons]
      have hhd : (pystr "Description: " ++ (splitNl v).headI).head? = some 'D' := rfl
      rw [hhd]
      rw [if_neg (by intro hcon; cases hcon)]
      have hshape : pystr "Description: " ++ (splitNl v).headI
          = pystr "Description" ++ ':' :: (' ' :: (splitNl v).headI) := rfl
      rw [hshape, takeWhile_no_colon_append (by decide)]
      rw [List.filterMap_map]
      have hrest : (splitNl v).tail.filterMap ((fun l => if l.head? = some ' ' then none
          else some (l.takeWhile (fun c => !(decide (c = ':'))))) ∘ (fun l => ' ' :: l)) = [] := by
        rw [filterMap_congr_my (g := fun _ => none)]
        · exact filterMap_none_my _
        · intro l _
          simp
      rw [hrest, hdesc]
    · rw [if_neg hdesc]
      unfold field_names_of
      rw [List.filterMap_cons]
      have hshape : f ++ pystr ": " ++ v = f ++ ':' :: (' ' :: v) := by
        rw [List.append_assoc]
        rfl
      rw [hshape]
      rw [head?_append_ne_nil _ hne]
      rw [if_neg hsp, takeWhile_no_colon_append hc]
      rfl

theorem field_names_of_package_fields (p : PyDict) :
    ∀ (fields : List PyStr),
    (∀ f ∈ fields, f ≠ [] ∧ f.head? ≠ some ' ' ∧ (∀ c ∈ f, c ≠ ':')) →
    field_names_of ((fields.map (emit_field_line p)).flatten)
      = fields.filter (fun f => (alistGet? p f).isSome) := by
  intro fields
  induction fields with
  | nil =>
    intro _
    rfl
  | cons f fs ih =>
    intro h
    obtain ⟨h1, h2, h3⟩ := h f (List.mem_cons_self f fs)
    rw [List.map_cons, List.flatten_cons, field_names_of_append,
        field_names_of_emit_field_line p f h1 h2 h3,
        ih (fun g hg => h g (List.mem_cons_of_mem f hg)), List.filter_cons]
    by_cases hs : (alistGet? p f).isSome
    · rw [if_pos hs, if_pos (by simpa using hs)]
      rfl
    · rw [if_neg hs, if_neg (by simpa using hs)]
      rfl

theorem emit_packages_content_cons (p : PyDict) (ps : List PyDict) :
    emit_packages_content (p :: ps)
      = pyJoin (pystr "\n\n") ((p :: ps).map record_text) ++ pystr "\n" := by
  unfold emit_packages_content
  dsimp only
  rw [if_neg (by simp)]

theorem emit_packages_content_pair (p q : PyDict) :
    emit_packages_content [p, q]
      = record_text p ++ pystr "\n\n" ++ record_text q ++ pystr "\n" := by
  rw [emit_packages_content_cons]
  show (record_text p ++ pystr "\n\n" ++ pyJoin (pystr "\n\n") [record_text q]) ++ pystr "\n" = _
  rfl

theorem alistGet?_cons {α : Type} (k1 : PyStr) (v1 : α) (rest : List (PyStr × α)) (k : PyStr) :
    alistGet? ((k1, v1) :: rest) k = if k1 = k then some v1 else alistGet? rest k := by
  unfold alistGet?
  rw [List.find?_cons]
  by_cases h : k1 = k
  · simp [h]
  · simp [h]

theorem fold_optional_extra (ci : PyDict) : ∀ (fields : List PyStr) (b : PyDict),
    fields.foldl (fun b f => match alistGet? ci f with
      | some v => b ++ [(f, v)]
      | none => b) b
    = b ++ fields.filterMap (fun f => (alistGet? ci f).map (fun v => (f, v))) := by
  intro fields
  induction fields with
  | nil =>
    intro b
    simp
  | cons f fs ih =>
    intro b
    rw [List.foldl_cons]
    cases hv : alistGet? ci f with
    | none =>
      rw [List.filterMap_cons]
      simp only [hv, Option.map_none']
      exact ih b
    | some v =>
      rw [List.filterMap_cons]
      simp only [hv, Option.map_some']
      rw [ih (b ++ [(f, v)])]
      simp

theorem alistSet_singleton_self (K w w2 : PyStr) :
    alistSet [(K, w)] K w2 = [(K, w2)] := by
  unfold alistSet
  rw [if_pos (by simp)]
  simp

theorem fold_cont_singleton {K : PyStr} (hK : K ≠ []) :
    ∀ (conts : List PyStr) (w : PyStr),
      (∀ l ∈ conts, l.head? = some ' ' ∨ l.head? = some '\t') →
      List.foldl controlStep ([(K, w)], some K) conts
        = ([(K, w ++ (conts.filterMap
            (fun l => if pyRstrip l = [] then none else some ('\n' :: pyRstrip l))).flatten)],
           some K) := by
  intro conts
  induction conts with
  | nil =>
    intro w _
    simp
  | cons l ls ih =>
    intro w hc
    rw [List.foldl_cons, controlStep_cont hK (hc l (List.mem_cons_self l ls))]
    by_cases hb : pyRstrip l = []
    · rw [if_pos hb, ih w (fun x hx => hc x (List.mem_cons_of_mem l hx))]
      rw [List.filterMap_cons]
      simp only [hb, if_pos rfl, if_true]
    · rw [if_neg hb]
      have hget : alistGet? [(K, w)] K = some w := by
        rw [alistGet?_cons, if_pos rfl]
      rw [hget]
      show List.foldl controlStep (alistSet [(K, w)] K (w ++ '\n' :: pyRstrip l), some K) ls = _
      rw [alistSet_singleton_self, ih _ (fun x hx => hc x (List.mem_cons_of_mem l hx))]
      rw [List.filterMap_cons]
      simp [hb, List.append_assoc]

theorem controlStep_init_cont {l : PyStr}
    (h : l.head? = some ' ' ∨ l.head? = some '\t' ∨ pyRstrip l = []) :
    controlStep ([], none) l = ([], none) := by
  rcases h with h | h | h
  · by_cases hb : pyRstrip l = []
    · exact controlStep_blank hb
    · simp only [controlStep]
      rw [if_neg hb, if_pos (by rw [head?_pyRstrip hb]; exact Or.inl h)]
  · by_cases hb : pyRstrip l = []
    · exact controlStep_blank hb
    · simp only [controlStep]
      rw [if_neg hb, if_pos (by rw [head?_pyRstrip hb]; exact Or.inr h)]
  · exact controlStep_blank h

theorem fold_cont_init (conts : List PyStr)
    (h : ∀ l ∈ conts, l.head? = some ' ' ∨ l.head? = some '\t' ∨ pyRstrip l = []) :
    List.foldl controlStep ([], none) conts = ([], none) := by
  induction conts with
  | nil => rfl
  | cons l ls ih =>
    rw [List.foldl_cons, controlStep_init_cont (h l (List.mem_cons_self l ls))]
    exact ih (fun x hx => h x (List.mem_cons_of_mem l hx))

theorem controlStep_no_colon {st : PyDict × Option PyStr} {l : PyStr}
    (h1 : pyRstrip l ≠ []) (h2 : (pyRstrip l).head? ≠ some ' ')
    (h3 : (pyRstrip l).head? ≠ some '\t') (h4 : ':' ∉ pyRstrip l) :
    controlStep st l = st := by
  simp only [controlStep]
  rw [if_neg h1, if_neg (by intro hor; rcases hor with h | h; exact h2 h; exact h3 h),
      if_neg h4]

theorem generate_fst_prefix (packages_all : List PyDict) :
    ∀ (l : List (PyStr × List PyDict)) (ems : List EmittedIndex) (act : List PyStr),
    ∃ extra, (l.foldl (fun acc p =>
      let combined := p.2 ++ packages_all
      if combined = [] ∧ ¬ (p.1 ∈ acc.2) then acc
      else (acc.1 ++ [⟨p.1, combined, emit_packages_content combined⟩], acc.2 ++ [p.1]))
      (ems, act)).1 = ems ++ extra := by
  intro l
  induction l with
  | nil =>
    intro ems act
    exact ⟨[], by simp⟩
  | cons p rest ih =>
    intro ems act
    rw [List.foldl_cons]
    by_cases hskip : p.2 ++ packages_all = [] ∧ ¬ (p.1 ∈ act)
    · rw [if_pos hskip]
      exact ih ems act
    · rw [if_neg hskip]
      dsimp only
      rcases ih (ems ++ [⟨p.1, p.2 ++ packages_all,
          emit_packages_content (p.2 ++ packages_all)⟩]) (act ++ [p.1]) with ⟨extra, hex⟩
      exact ⟨[⟨p.1, p.2 ++ packages_all, emit_packages_content (p.2 ++ packages_all)⟩] ++ extra,
        by rw [hex, List.append_assoc]⟩

theorem process_asset_keys (sha256hex : List Nat → PyStr) (st : RunState) (a : Asset) :
    ∀ tkn ∈ (process_asset sha256hex st a).packages_by_arch.map Prod.fst,
      tkn ∈ st.packages_by_arch.map Prod.fst ∨
      (∃ txt, a.controlText = some txt ∧
        tkn = pyStrip ((alistGet? (extract_deb_control txt)
          (pystr "Architecture")).getD (pystr "all"))) := by
  intro tkn htk
  cases hctl : a.controlText with
  | none =>
    rw [process_asset, hctl] at htk
    exact Or.inl htk
  | some txt =>
    cases hp : alistGet? (extract_deb_control txt) (pystr "Package") with
    | none =>
      rw [process_asset, hctl] at htk
      simp only [hp] at htk
      exact Or.inl htk
    | some pkg =>
      by_cases hpe : pkg = []
      · rw [process_asset, hctl] at htk
        simp only [hp, hpe, if_pos rfl, if_true] at htk
        exact Or.inl htk
      · cases hv : alistGet? (extract_deb_control txt) (pystr "Version") with
        | none =>
          rw [process_asset, hctl] at htk
          simp only [hp, hv, if_neg hpe] at htk
          exact Or.inl htk
        | some ver =>
          rw [process_asset_success sha256hex st a hctl hp hpe hv] at htk
          by_cases harch :
            pyStrip ((alistGet? (extract_deb_control txt)
              (pystr "Architecture")).getD (pystr "all")) = pystr "all"
          · rw [if_pos harch] at htk
            exact Or.inl htk
          · rw [if_neg harch] at htk
            simp only at htk
            rw [defaultAppend_keys] at htk
            by_cases hany : st.packages_by_arch.any (fun p => decide (p.1 =
                pyStrip ((alistGet? (extract_deb_control txt)
                  (pystr "Architecture")).getD (pystr "all")))) = true
            · rw [if_pos hany] at htk
              exact Or.inl htk
            · rw [if_neg hany] at htk
              rcases List.mem_append.mp htk with hm | hm
              · exact Or.inl hm
              · rw [List.mem_singleton] at hm
                exact Or.inr ⟨txt, rfl, hm⟩

theorem fold_keys (sha256hex : List Nat → PyStr) :
    ∀ (assets : List Asset) (st : RunState),
    ∀ tkn ∈ (assets.foldl (process_asset sha256hex) st).packages_by_arch.map Prod.fst,
      tkn ∈ st.packages_by_arch.map Prod.fst ∨
      (∃ a ∈ assets, ∃ txt, a.controlText = some txt ∧
        tkn = pyStrip ((alistGet? (extract_deb_control txt)
          (pystr "Architecture")).getD (pystr "all"))) := by
  intro assets
  induction assets with
  | nil =>
    intro st tkn htk
    exact Or.inl htk
  | cons a as ih =>
    intro st tkn htk
    rw [List.foldl_cons] at htk
    rcases ih (process_asset sha256hex st a) tkn htk with hm | ⟨b, hb, htxt⟩
    · rcases process_asset_keys sha256hex st a tkn hm with hm2 | ⟨txt, hctl, he⟩
      · exact Or.inl hm2
      · exact Or.inr ⟨a, List.mem_cons_self a as, txt, hctl, he⟩
    · exact Or.inr ⟨b, List.mem_cons_of_mem a hb, htxt⟩

/-- Claim C1, counterexample: the record c1package has Description a newline b,
but serializing it with the index writer and re parsing with the control
parser returns a newline space b: the parser keeps the leading continuation
space, so the round trip is not the identity claimed. -/
theorem c1_counterexample :
    alistGet? c1package (pystr "Description") = some (pystr "a\nb") ∧
    alistGet? (extract_deb_control (emit_packages_content [c1package])) (pystr "Description")
      = some (pystr "a\n b") ∧
    pystr "a\n b" ≠ pystr "a\nb" := by
  refine ⟨rfl, rfl, by decide⟩

/-- Claim C1, amended: serializing a PackageRecord whose Description is d with
the Metadata Index Writer and re parsing the emitted text with the Control
Text Parser yields a Description equal to descRoundTrip d, that is, the first
line of d stripped, then every non whitespace later line of d with trailing
whitespace removed and one leading space added, joined by newlines, with
whitespace only lines dropped; this equals d itself exactly when d is already
of that shape. -/
theorem c1_description_round_trip (p : PyDict) (d : PyStr)
    (hd : alistGet? p (pystr "Description") = some d) :
    alistGet? (extract_deb_control (emit_packages_content [p])) (pystr "Description")
      = some (descRoundTrip d) :=
  desc_round_trip_general p d hd

/-- Claim C1, witness: the amended round trip evaluated on the concrete record
c1package. -/
theorem c1_witness :
    alistGet? c1package (pystr "Description") = some (pystr "a\nb") ∧
    alistGet? (extract_deb_control (emit_packages_content [c1package])) (pystr "Description")
      = some (descRoundTrip (pystr "a\nb")) :=
  ⟨rfl, c1_description_round_trip c1package (pystr "a\nb") rfl⟩

/-- Claim C2, counterexample: on control text from which no field line can be
recovered the parser does not raise any error; it returns normally with the
empty field mapping, and the surrounding ingestion loop then skips the asset
through the missing Package path, logging one error line. -/
theorem c2_counterexample :
    extract_deb_control (pystr "no colon in this control text") = [] ∧
    download_deb_packages exSha
        [⟨pystr "g.deb", [7], some (pystr "no colon in this control text")⟩]
      = ⟨[], [], [pystr "Error processing g.deb"]⟩ :=
  ⟨rfl, rfl⟩

/-- Claim C2, amended: the Control Text Parser is a total function that never
raises; its result is the empty field mapping exactly when no physical line of
the input is a field line, that is, a line that is non blank after trailing
whitespace strip, does not start with a space or tab, and contains a colon.
Any input with at least one field line yields a non empty mapping. -/
theorem c2_empty_iff_no_field_line (control_content : PyStr) :
    extract_deb_control control_content = []
      ↔ ∀ l ∈ splitNl control_content, isFieldLine l = false :=
  extract_lines_empty_iff (splitNl control_content)

/-- Claim C3: an archive whose parsed control fields lack Package or Version is
skipped with a logged error, both architecture buckets are exactly those of the
same run without that archive, and the run is not aborted: every sibling
archive still produces its entries. -/
theorem c3_incomplete_metadata_skipped (sha256hex : List Nat → PyStr)
    (pre post : List Asset) (a : Asset) (txt : PyStr)
    (hctl : a.controlText = some txt)
    (hmiss : alistGet? (extract_deb_control txt) (pystr "Package") = none ∨
             alistGet? (extract_deb_control txt) (pystr "Version") = none) :
    (download_deb_packages sha256hex (pre ++ a :: post)).packages_by_arch
      = (download_deb_packages sha256hex (pre ++ post)).packages_by_arch ∧
    (download_deb_packages sha256hex (pre ++ a :: post)).packages_all
      = (download_deb_packages sha256hex (pre ++ post)).packages_all ∧
    (pystr "Error processing " ++ a.name)
      ∈ (download_deb_packages sha256hex (pre ++ a :: post)).log := by
  unfold download_deb_packages
  rw [List.foldl_append, List.foldl_append, List.foldl_cons]
  rw [process_asset_skip sha256hex (pre.foldl (process_asset sha256hex) ⟨[], [], []⟩) a
      hctl hmiss]
  obtain ⟨hb, ha⟩ := fold_buckets_congr sha256hex post
      { pre.foldl (process_asset sha256hex) ⟨[], [], []⟩ with
        log := (pre.foldl (process_asset sha256hex) ⟨[], [], []⟩).log
          ++ [pystr "Error processing " ++ a.name] }
      (pre.foldl (process_asset sha256hex) ⟨[], [], []⟩) rfl rfl
  refine ⟨hb, ha, ?_⟩
  rcases fold_log_mono sha256hex post
      { pre.foldl (process_asset sha256hex) ⟨[], [], []⟩ with
        log := (pre.foldl (process_asset sha256hex) ⟨[], [], []⟩).log
          ++ [pystr "Error processing " ++ a.name] } with ⟨msgs, hl⟩
  rw [hl]
  simp

/-- Claim C3, witness: in the run with the foo, missing Version, and bar
assets, the buckets equal those of the run without the bad asset and the error
line for it is logged. -/
theorem c3_witness :
    exNoVer.controlText = some (pystr "Package: bad\nArchitecture: mips") ∧
    alistGet? (extract_deb_control (pystr "Package: bad\nArchitecture: mips"))
      (pystr "Version") = none ∧
    ((download_deb_packages exSha [exFoo, exNoVer, exBar]).packages_by_arch
      = (download_deb_packages exSha [exFoo, exBar]).packages_by_arch ∧
     (download_deb_packages exSha [exFoo, exNoVer, exBar]).packages_all
      = (download_deb_packages exSha [exFoo, exBar]).packages_all ∧
     (pystr "Error processing " ++ exNoVer.name)
      ∈ (download_deb_packages exSha [exFoo, exNoVer, exBar]).log) :=
  ⟨rfl, rfl,
   c3_incomplete_metadata_skipped exSha [exFoo] [exBar] exNoVer
     (pystr "Package: bad\nArchitecture: mips") rfl (Or.inr rfl)⟩

theorem alistGet?_append_left {α : Type} {a : List (PyStr × α)} (b : List (PyStr × α))
    {k : PyStr} {v : α} (h : alistGet? a k = some v) : alistGet? (a ++ b) k = some v := by
  unfold alistGet? at h ⊢
  rw [find?_append_my]
  cases hf : a.find? (fun p => decide (p.1 = k)) with
  | none =>
    rw [hf] at h
    simp at h
  | some q =>
    rw [hf] at h
    exact h

theorem base_entry_fields (sha256hex : List Nat → PyStr) (asset_name : PyStr)
    (content : List Nat) (control_info : PyDict) (pkg_name version : PyStr) :
    alistGet? (base_entry sha256hex asset_name content control_info pkg_name version)
      (pystr "SHA256") = some (sha256hex content) ∧
    alistGet? (base_entry sha256hex asset_name content control_info pkg_name version)
      (pystr "Size") = some ((Nat.repr content.length).data) ∧
    alistGet? (base_entry sha256hex asset_name content control_info pkg_name version)
      (pystr "Filename") = some (pystr "pool/main/" ++ pkg_name.take 1 ++ pystr "/"
        ++ pkg_name ++ pystr "/" ++ asset_name) := by
  unfold base_entry
  dsimp only
  rw [fold_optional_extra]
  refine ⟨?_, ?_, ?_⟩
  · apply alistGet?_append_left
    rw [alistGet?_cons, if_neg (by decide), alistGet?_cons, if_neg (by decide),
        alistGet?_cons, if_neg (by decide), alistGet?_cons, if_neg (by decide),
        alistGet?_cons, if_neg (by decide), alistGet?_cons, if_neg (by decide),
        alistGet?_cons, if_neg (by decide), alistGet?_cons, if_neg (by decide),
        alistGet?_cons, if_pos rfl]
  · apply alistGet?_append_left
    rw [alistGet?_cons, if_neg (by decide), alistGet?_cons, if_neg (by decide),
        alistGet?_cons, if_neg (by decide), alistGet?_cons, if_neg (by decide),
        alistGet?_cons, if_neg (by decide), alistGet?_cons, if_neg (by decide),
        alistGet?_cons, if_neg (by decide), alistGet?_cons, if_pos rfl]
  · apply alistGet?_append_left
    rw [alistGet?_cons, if_neg (by decide), alistGet?_cons, if_neg (by decide),
        alistGet?_cons, if_neg (by decide), alistGet?_cons, if_neg (by decide),
        alistGet?_cons, if_neg (by decide), alistGet?_cons, if_neg (by decide),
        alistGet?_cons, if_pos rfl]

/-- Claim C4: the Architecture Router. For every successfully built record with
architecture token arch: when arch is all, the record is appended exactly once
to the all bucket and every concrete bucket is untouched; when arch is a
concrete token, the all bucket is untouched, the record is appended exactly
once to the bucket of arch, that bucket being created on first sight of the
token, every other bucket is unchanged, and the key set grows by arch exactly
when arch is new. Moreover every key of a finished run is an architecture
token reported by the control metadata of some input record. -/
theorem c4_architecture_router :
    (∀ (sha256hex : List Nat → PyStr) (st : RunState) (a : Asset) (txt pkg ver : PyStr),
      a.controlText = some txt →
      alistGet? (extract_deb_control txt) (pystr "Package") = some pkg →
      pkg ≠ [] →
      alistGet? (extract_deb_control txt) (pystr "Version") = some ver →
      ∀ arch, arch = pyStrip ((alistGet? (extract_deb_control txt)
          (pystr "Architecture")).getD (pystr "all")) →
        ((arch = pystr "all" →
          (process_asset sha256hex st a).packages_all
            = st.packages_all ++ [alistSet (base_entry sha256hex a.name a.content
                (extract_deb_control txt) pkg ver) (pystr "Architecture") (pystr "all")] ∧
          (process_asset sha256hex st a).packages_by_arch = st.packages_by_arch) ∧
        (arch ≠ pystr "all" →
          (process_asset sha256hex st a).packages_all = st.packages_all ∧
          alistGet? (process_asset sha256hex st a).packages_by_arch arch
            = some ((alistGet? st.packages_by_arch arch).getD []
                ++ [alistSet (base_entry sha256hex a.name a.content
                    (extract_deb_control txt) pkg ver) (pystr "Architecture") arch]) ∧
          (∀ t2, t2 ≠ arch →
            alistGet? (process_asset sha256hex st a).packages_by_arch t2
              = alistGet? st.packages_by_arch t2) ∧
          (process_asset sha256hex st a).packages_by_arch.map Prod.fst
            = (if st.packages_by_arch.any (fun p => decide (p.1 = arch))
               then st.packages_by_arch.map Prod.fst
               else st.packages_by_arch.map Prod.fst ++ [arch])))) ∧
    (∀ (sha256hex : List Nat → PyStr) (assets : List Asset) (tkn : PyStr),
      tkn ∈ (download_deb_packages sha256hex assets).packages_by_arch.map Prod.fst →
      tkn ∈ archTokens assets) := by
  constructor
  · intro sha256hex st a txt pkg ver hctl hp hpe hv arch harch
    subst harch
    rw [process_asset_success sha256hex st a hctl hp hpe hv]
    constructor
    · intro hall
      rw [if_pos hall]
      exact ⟨rfl, rfl⟩
    · intro hne
      rw [if_neg hne]
      refine ⟨rfl, ?_, ?_, ?_⟩
      · exact alistGet?_defaultAppend_self _ _ _
      · intro t2 ht2
        exact alistGet?_defaultAppend_ne _ _ ht2
      · exact defaultAppend_keys _ _ _
  · intro sha256hex assets tkn htk
    unfold download_deb_packages at htk
    rcases fold_keys sha256hex assets ⟨[], [], []⟩ tkn htk with hm | ⟨a, ha, txt, hctl, he⟩
    · simp at hm
    · unfold archTokens
      apply List.mem_filterMap.mpr
      refine ⟨a, ha, ?_⟩
      rw [hctl, Option.map_some', he]

/-- Claim C4, witness: the router applied to the concrete arm64 asset from the
empty state creates the arm64 bucket with exactly one record and leaves the
all bucket empty. -/
theorem c4_witness :
    exBar.controlText = some (pystr "Package: bar\nVersion: 2.0\nArchitecture: arm64") ∧
    pystr "bar" ≠ ([] : PyStr) ∧
    pystr "arm64" ≠ pystr "all" ∧
    ((process_asset exSha ⟨[], [], []⟩ exBar).packages_all = [] ∧
     alistGet? (process_asset exSha ⟨[], [], []⟩ exBar).packages_by_arch (pystr "arm64")
       = some [alistSet (base_entry exSha exBar.name exBar.content
           (extract_deb_control (pystr "Package: bar\nVersion: 2.0\nArchitecture: arm64"))
           (pystr "bar") (pystr "2.0")) (pystr "Architecture") (pystr "arm64")]) := by
  refine ⟨rfl, by decide, by decide, ?_⟩
  have h := ((c4_architecture_router.1 exSha ⟨[], [], []⟩ exBar
      (pystr "Package: bar\nVersion: 2.0\nArchitecture: arm64")
      (pystr "bar") (pystr "2.0") rfl rfl (by decide) rfl
      (pystr "arm64") rfl).2 (by decide))
  exact ⟨h.1, h.2.1⟩

/-- Claim C8: for every successfully ingested archive, the built record has
SHA256 equal to the digest function applied to the exact raw input bytes, Size
equal to the decimal representation of the byte length of those bytes, and
Filename equal to pool/main/, the first character of the package name, the
package name, and the original asset file name; and this record is the one
appended to the all bucket or to its architecture bucket. -/
theorem c8_hash_size_filename (sha256hex : List Nat → PyStr) (st : RunState) (a : Asset)
    (txt pkg ver : PyStr)
    (hctl : a.controlText = some txt)
    (hp : alistGet? (extract_deb_control txt) (pystr "Package") = some pkg)
    (hpe : pkg ≠ [])
    (hv : alistGet? (extract_deb_control txt) (pystr "Version") = some ver) :
    ∀ arch, arch = pyStrip ((alistGet? (extract_deb_control txt)
        (pystr "Architecture")).getD (pystr "all")) →
      (alistGet? (alistSet (base_entry sha256hex a.name a.content (extract_deb_control txt)
          pkg ver) (pystr "Architecture") arch) (pystr "SHA256")
        = some (sha256hex a.content) ∧
       alistGet? (alistSet (base_entry sha256hex a.name a.content (extract_deb_control txt)
          pkg ver) (pystr "Architecture") arch) (pystr "Size")
        = some ((Nat.repr a.content.length).data) ∧
       alistGet? (alistSet (base_entry sha256hex a.name a.content (extract_deb_control txt)
          pkg ver) (pystr "Architecture") arch) (pystr "Filename")
        = some (pystr "pool/main/" ++ pkg.take 1 ++ pystr "/" ++ pkg ++ pystr "/" ++ a.name)) ∧
      (arch = pystr "all" →
        (process_asset sha256hex st a).packages_all
          = st.packages_all ++ [alistSet (base_entry sha256hex a.name a.content
              (extract_deb_control txt) pkg ver) (pystr "Architecture") arch]) ∧
      (arch ≠ pystr "all" →
        alistGet? (process_asset sha256hex st a).packages_by_arch arch
          = some ((alistGet? st.packages_by_arch arch).getD []
              ++ [alistSet (base_entry sha256hex a.name a.content
                  (extract_deb_control txt) pkg ver) (pystr "Architecture") arch])) := by
  intro arch harch
  obtain ⟨hS, hZ, hF⟩ := base_entry_fields sha256hex a.name a.content
    (extract_deb_control txt) pkg ver
  refine ⟨⟨?_, ?_, ?_⟩, ?_, ?_⟩
  · rw [alistGet?_set_ne _ _ (by decide), hS]
  · rw [alistGet?_set_ne _ _ (by decide), hZ]
  · rw [alistGet?_set_ne _ _ (by decide), hF]
  · intro hall
    rw [process_asset_success sha256hex st a hctl hp hpe hv]
    subst harch
    rw [if_pos hall, hall]
  · intro hne
    rw [process_asset_success sha256hex st a hctl hp hpe hv]
    subst harch
    rw [if_neg hne]
    exact alistGet?_defaultAppend_self _ _ _

/-- Claim C8, witness: the record built for the concrete arm64 asset has the
digest of its three raw bytes, size two, and the pool path derived from the
package name bar and the original asset name. -/
theorem c8_witness :
    exBar.controlText = some (pystr "Package: bar\nVersion: 2.0\nArchitecture: arm64") ∧
    pystr "bar" ≠ ([] : PyStr) ∧
    (alistGet? (alistSet (base_entry exSha exBar.name exBar.content
        (extract_deb_control (pystr "Package: bar\nVersion: 2.0\nArchitecture: arm64"))
        (pystr "bar") (pystr "2.0")) (pystr "Architecture") (pystr "arm64")) (pystr "SHA256")
      = some (exSha exBar.content) ∧
     alistGet? (alistSet (base_entry exSha exBar.name exBar.content
        (extract_deb_control (pystr "Package: bar\nVersion: 2.0\nArchitecture: arm64"))
        (pystr "bar") (pystr "2.0")) (pystr "Architecture") (pystr "arm64")) (pystr "Size")
      = some ((Nat.repr exBar.content.length).data) ∧
     alistGet? (alistSet (base_entry exSha exBar.name exBar.content
        (extract_deb_control (pystr "Package: bar\nVersion: 2.0\nArchitecture: arm64"))
        (pystr "bar") (pystr "2.0")) (pystr "Architecture") (pystr "arm64")) (pystr "Filename")
      = some (pystr "pool/main/" ++ (pystr "bar").take 1 ++ pystr "/" ++ pystr "bar"
          ++ pystr "/" ++ exBar.name)) := by
  refine ⟨rfl, by decide, ?_⟩
  exact (c8_hash_size_filename exSha ⟨[], [], []⟩ exBar
    (pystr "Package: bar\nVersion: 2.0\nArchitecture: arm64")
    (pystr "bar") (pystr "2.0") rfl rfl (by decide) rfl (pystr "arm64") rfl).1

/-- Claim C5: for every concrete architecture token t, the emitted index for t
holds exactly the native records of the t bucket followed by all records of
the all bucket, in that order; every record in the index for t carries
Architecture t or all, the all index holds exactly the all bucket, and hence a
record with a concrete Architecture never appears in an emitted index other
than the one of its own architecture. -/
theorem c5_emitted_index_union (sha256hex : List Nat → PyStr) (assets : List Asset) :
    (∀ (t : PyStr) (em : EmittedIndex), t ≠ pystr "all" →
      findEm ((generate_packages_files
          (download_deb_packages sha256hex assets).packages_by_arch
          (download_deb_packages sha256hex assets).packages_all).1) t = some em →
      em.records
        = (alistGet? (download_deb_packages sha256hex assets).packages_by_arch t).getD []
          ++ (download_deb_packages sha256hex assets).packages_all ∧
      (∀ e ∈ em.records, alistGet? e (pystr "Architecture") = some t ∨
        alistGet? e (pystr "Architecture") = some (pystr "all"))) ∧
    (findEm ((generate_packages_files
        (download_deb_packages sha256hex assets).packages_by_arch
        (download_deb_packages sha256hex assets).packages_all).1) (pystr "all")
      = some ⟨pystr "all", (download_deb_packages sha256hex assets).packages_all,
          emit_packages_content (download_deb_packages sha256hex assets).packages_all⟩) ∧
    (∀ (t t2 : PyStr) (em : EmittedIndex) (e : PyDict),
      findEm ((generate_packages_files
          (download_deb_packages sha256hex assets).packages_by_arch
          (download_deb_packages sha256hex assets).packages_all).1) t = some em →
      e ∈ em.records →
      alistGet? e (pystr "Architecture") = some t2 → t2 ≠ t → t2 = pystr "all") := by
  obtain ⟨inv1, inv2, inv3⟩ := download_invariant sha256hex assets
  have hnonempty : ∀ p ∈ (download_deb_packages sha256hex assets).packages_by_arch,
      p.2 ≠ [] := fun p hp => (inv1 p hp).2.1
  have hA : ∀ (t : PyStr) (em : EmittedIndex), t ≠ pystr "all" →
      findEm ((generate_packages_files
          (download_deb_packages sha256hex assets).packages_by_arch
          (download_deb_packages sha256hex assets).packages_all).1) t = some em →
      em.records
        = (alistGet? (download_deb_packages sha256hex assets).packages_by_arch t).getD []
          ++ (download_deb_packages sha256hex assets).packages_all ∧
      (∀ e ∈ em.records, alistGet? e (pystr "Architecture") = some t ∨
        alistGet? e (pystr "Architecture") = some (pystr "all")) := by
    intro t em hne hf
    rw [findEm_generate _ _ t inv3 hne hnonempty] at hf
    cases hg : alistGet? (download_deb_packages sha256hex assets).packages_by_arch t with
    | none =>
      rw [hg] at hf
      simp at hf
    | some pkgs =>
      rw [hg] at hf
      simp only [Option.map_some'] at hf
      have hem := Option.some.inj hf
      subst hem
      refine ⟨by simp, ?_⟩
      intro e he
      rcases List.mem_append.mp he with he | he
      · left
        unfold alistGet? at hg
        cases hfind : (download_deb_packages sha256hex assets).packages_by_arch.find?
            (fun p => decide (p.1 = t)) with
        | none =>
          rw [hfind] at hg
          simp at hg
        | some q =>
          rw [hfind] at hg
          simp only [Option.map_some'] at hg
          have hq2 : q.2 = pkgs := Option.some.inj hg
          have hq1 : q.1 = t := by
            have := List.find?_some hfind
            simpa using this
          have hqm : q ∈ (download_deb_packages sha256hex assets).packages_by_arch :=
            List.mem_of_find?_eq_some hfind
          have := (inv1 q hqm).2.2 e (by rw [hq2]; exact he)
          rw [hq1] at this
          exact this
      · right
        exact inv2 e he
  have hB : findEm ((generate_packages_files
      (download_deb_packages sha256hex assets).packages_by_arch
      (download_deb_packages sha256hex assets).packages_all).1) (pystr "all")
      = some ⟨pystr "all", (download_deb_packages sha256hex assets).packages_all,
          emit_packages_content (download_deb_packages sha256hex assets).packages_all⟩ := by
    rw [generate_eq _ _ inv3]
    unfold findEm
    rw [List.find?_cons]
    have hd : (decide ((⟨pystr "all",
        (download_deb_packages sha256hex assets).packages_all,
        emit_packages_content (download_deb_packages sha256hex assets).packages_all⟩ :
          EmittedIndex).arch = pystr "all")) = true := by
      show decide (pystr "all" = pystr "all") = true
      decide
    rw [hd]
  refine ⟨hA, hB, ?_⟩
  intro t t2 em e hf he ha hne2
  by_cases ht : t = pystr "all"
  · subst ht
    rw [hB] at hf
    have hem := Option.some.inj hf
    subst hem
    have := inv2 e he
    rw [ha] at this
    exact Option.some.inj this
  · rcases (hA t em ht hf).2 e he with h | h
    · exact absurd (Option.some.inj (ha.symm.trans h)) hne2
    · exact Option.some.inj (ha.symm.trans h)

/-- Claim C5, witness: in the end to end scenario the arm64 index holds the
native bar record followed by the all bucket foo record, and each of its
records carries Architecture arm64 or all. -/
theorem c5_witness :
    pystr "arm64" ≠ pystr "all" ∧
    findEm exEms (pystr "arm64") = some exEmArm ∧
    (exEmArm.records
      = (alistGet? exRun.packages_by_arch (pystr "arm64")).getD [] ++ exRun.packages_all ∧
     (∀ e ∈ exEmArm.records, alistGet? e (pystr "Architecture") = some (pystr "arm64") ∨
       alistGet? e (pystr "Architecture") = some (pystr "all"))) := by
  refine ⟨by decide, rfl, ?_⟩
  exact (c5_emitted_index_union exSha [exFoo, exBar]).1 (pystr "arm64") exEmArm
    (by decide) rfl

/-- Claim C6: the all index is emitted first on every run, even when its bucket
is empty; under the dict key uniqueness that every Python run guarantees, a
concrete architecture index is emitted exactly for the buckets whose union
with the all bucket is non empty; and the empty input produces exactly one
emitted index, the empty all index, with no active architectures. -/
theorem c6_all_bucket_always_emitted :
    (∀ (packages_by_arch : List (PyStr × List PyDict)) (packages_all : List PyDict),
      ((generate_packages_files packages_by_arch packages_all).1).head?
        = some ⟨pystr "all", packages_all, emit_packages_content packages_all⟩) ∧
    (∀ (packages_by_arch : List (PyStr × List PyDict)) (packages_all : List PyDict),
      (packages_by_arch.map Prod.fst).Nodup →
      (∀ em ∈ ((generate_packages_files packages_by_arch packages_all).1).tail,
        em.records ≠ []) ∧
      (∀ p ∈ packages_by_arch, p.2 ++ packages_all ≠ [] →
        ∃ em ∈ ((generate_packages_files packages_by_arch packages_all).1).tail,
          em.arch = p.1 ∧ em.records = p.2 ++ packages_all)) ∧
    (generate_packages_files [] [] = ([⟨pystr "all", [], []⟩], [])) := by
  refine ⟨?_, ?_, rfl⟩
  · intro packages_by_arch packages_all
    unfold generate_packages_files
    dsimp only
    rcases generate_fst_prefix packages_all packages_by_arch
        [⟨pystr "all", packages_all, emit_packages_content packages_all⟩]
        (if packages_all = [] then [] else [pystr "all"]) with ⟨extra, hex⟩
    rw [hex]
    rfl
  · intro packages_by_arch packages_all hN
    constructor
    · intro em hem
      rw [generate_eq _ _ hN] at hem
      rw [List.tail_cons] at hem
      rcases List.mem_filterMap.mp hem with ⟨p, hp, hfp⟩
      by_cases hc : p.2 ++ packages_all = []
      · rw [if_pos hc] at hfp
        cases hfp
      · rw [if_neg hc] at hfp
        have hem2 := Option.some.inj hfp
        subst hem2
        exact hc
    · intro p hp hc
      refine ⟨⟨p.1, p.2 ++ packages_all, emit_packages_content (p.2 ++ packages_all)⟩,
        ?_, rfl, rfl⟩
      rw [generate_eq _ _ hN, List.tail_cons]
      exact List.mem_filterMap.mpr ⟨p, hp, by rw [if_neg hc]⟩

/-- Claim C6, witness: a run with one non empty arm64 bucket and an empty all
bucket has unique keys and every emitted concrete index is non empty. -/
theorem c6_witness :
    (([(pystr "arm64", [c1package])].map Prod.fst).Nodup) ∧
    (∀ em ∈ ((generate_packages_files [(pystr "arm64", [c1package])] []).1).tail,
      em.records ≠ []) := by
  refine ⟨by decide, ?_⟩
  exact ((c6_all_bucket_always_emitted.2.1) [(pystr "arm64", [c1package])] [] (by decide)).1

/-- Claim C7: the Metadata Index Writer emits the present fields of a record in
exactly the order Package, Version, Architecture, Maintainer, Filename, Size,
SHA256, Section, Priority, Depends, Recommends, Suggests, Conflicts, Provides,
Replaces, Description, omitting absent fields; two records are separated by
exactly one blank line; the bucket text is one trailing newline after the
blank line join when records exist and the empty string otherwise. -/
theorem c7_writer_field_order :
    (∀ p : PyDict, field_names_of (package_lines p)
      = (required_fields ++ optional_fields).filter (fun f => (alistGet? p f).isSome)) ∧
    (emit_packages_content [] = []) ∧
    (∀ (p : PyDict) (ps : List PyDict), emit_packages_content (p :: ps)
      = pyJoin (pystr "\n\n") ((p :: ps).map record_text) ++ pystr "\n") ∧
    (∀ p q : PyDict, emit_packages_content [p, q]
      = record_text p ++ pystr "\n\n" ++ record_text q ++ pystr "\n") := by
  refine ⟨?_, rfl, emit_packages_content_cons, emit_packages_content_pair⟩
  intro p
  unfold package_lines
  exact field_names_of_package_fields p (required_fields ++ optional_fields) (by decide)

/-- Claim C9: when a field line precedes the continuation lines, the parser
appends each non blank trailing stripped continuation line to the value of the
field just opened, in input order, joined by newline separators; and any block
of continuation or blank lines before the first field line is dropped without
an error, leaving the parse of the remaining text unchanged. -/
theorem c9_continuation_append :
    (∀ (F v : PyStr) (conts : List PyStr),
      F ≠ [] → F.head? ≠ some ' ' → F.head? ≠ some '\t' → (∀ c ∈ F, c ≠ ':') →
      pyStrip F ≠ [] → '\n' ∉ F → '\n' ∉ v →
      (∀ l ∈ conts, '\n' ∉ l ∧ (l.head? = some ' ' ∨ l.head? = some '\t')) →
      extract_deb_control (pyJoin (pystr "\n") ((F ++ ':' :: v) :: conts))
        = [(pyStrip F, pyStrip v ++ (conts.filterMap (fun l =>
            if pyRstrip l = [] then none else some ('\n' :: pyRstrip l))).flatten)]) ∧
    (∀ (conts rest : List PyStr),
      (∀ l ∈ conts, '\n' ∉ l ∧ (l.head? = some ' ' ∨ l.head? = some '\t')) →
      (∀ l ∈ rest, '\n' ∉ l) →
      extract_deb_control (pyJoin (pystr "\n") (conts ++ rest))
        = extract_deb_control (pyJoin (pystr "\n") rest)) := by
  constructor
  · intro F v conts hF hFs hFt hFc hFstrip hFn hvn hcont
    unfold extract_deb_control
    have hlines : splitNl (pyJoin (pystr "\n") ((F ++ ':' :: v) :: conts))
        = (F ++ ':' :: v) :: conts := by
      rw [splitNl_pyJoin _ (List.cons_ne_nil _ _)]
      apply flatten_map_splitNl
      intro l hl
      rcases List.mem_cons.mp hl with hl | hl
      · subst hl
        intro hm
        rcases List.mem_append.mp hm with hm | hm
        · exact hFn hm
        · rcases List.mem_cons.mp hm with hm | hm
          · cases hm
          · exact hvn hm
      · exact (hcont l hl).1
    rw [hlines, List.foldl_cons, controlStep_field hF hFs hFt hFc]
    show (List.foldl controlStep ([(pyStrip F, pyStrip v)], some (pyStrip F)) conts).1 = _
    rw [fold_cont_singleton hFstrip conts (pyStrip v) (fun l hl => (hcont l hl).2)]
  · intro conts rest hcont hrest
    by_cases hc0 : conts = []
    · subst hc0
      rfl
    · have hstep : ∀ l ∈ conts, l.head? = some ' ' ∨ l.head? = some '\t' ∨ pyRstrip l = [] := by
        intro l hl
        rcases (hcont l hl).2 with h | h
        · exact Or.inl h
        · exact Or.inr (Or.inl h)
      by_cases hr0 : rest = []
      · subst hr0
        unfold extract_deb_control
        rw [List.append_nil]
        have hlines : splitNl (pyJoin (pystr "\n") conts) = conts := by
          rw [splitNl_pyJoin _ hc0]
          exact flatten_map_splitNl (fun l hl => (hcont l hl).1)
        rw [hlines, fold_cont_init conts hstep]
        rfl
      · unfold extract_deb_control
        have happ : conts ++ rest ≠ [] := fun h => hc0 (List.append_eq_nil.mp h).1
        have hlines1 : splitNl (pyJoin (pystr "\n") (conts ++ rest)) = conts ++ rest := by
          rw [splitNl_pyJoin _ happ]
          apply flatten_map_splitNl
          intro l hl
          rcases List.mem_append.mp hl with hl | hl
          · exact (hcont l hl).1
          · exact hrest l hl
        have hlines2 : splitNl (pyJoin (pystr "\n") rest) = rest := by
          rw [splitNl_pyJoin _ hr0]
          exact flatten_map_splitNl hrest
        rw [hlines1, hlines2, List.foldl_append, fold_cont_init conts hstep]

/-- Claim C9, witness: the Depends field followed by a space led and a tab led
continuation line parses to the single field with both continuation lines
appended, each joined by a newline. -/
theorem c9_witness :
    pystr "Depends" ≠ ([] : PyStr) ∧
    pyStrip (pystr "Depends") ≠ [] ∧
    extract_deb_control (pyJoin (pystr "\n")
        ((pystr "Depends" ++ ':' :: pystr " libc") :: [pystr " a", pystr "\tb"]))
      = [(pyStrip (pystr "Depends"), pyStrip (pystr " libc")
          ++ ([pystr " a", pystr "\tb"].filterMap (fun l =>
              if pyRstrip l = [] then none else some ('\n' :: pyRstrip l))).flatten)] := by
  refine ⟨by decide, by decide, ?_⟩
  exact c9_continuation_append.1 (pystr "Depends") (pystr " libc") [pystr " a", pystr "\tb"]
    (by decide) (by decide) (by decide) (by decide) (by decide) (by decide) (by decide)
    (by decide)

/-- Claim C10: a non blank line without a colon that is not a continuation line
is skipped without touching the field mapping and without closing the open
field; deleting such a line anywhere in a control text leaves the parse result
unchanged, so a continuation line after it still extends the field opened
before it. -/
theorem c10_skip_no_colon_line :
    (∀ (st : PyDict × Option PyStr) (l : PyStr),
      pyRstrip l ≠ [] → (pyRstrip l).head? ≠ some ' ' → (pyRstrip l).head? ≠ some '\t' →
      ':' ∉ pyRstrip l → controlStep st l = st) ∧
    (∀ (pre post : List PyStr) (junk : PyStr),
      (∀ l ∈ pre, '\n' ∉ l) → (∀ l ∈ post, '\n' ∉ l) → '\n' ∉ junk →
      pyRstrip junk ≠ [] → (pyRstrip junk).head? ≠ some ' ' →
      (pyRstrip junk).head? ≠ some '\t' → ':' ∉ pyRstrip junk →
      extract_deb_control (pyJoin (pystr "\n") (pre ++ junk :: post))
        = extract_deb_control (pyJoin (pystr "\n") (pre ++ post))) := by
  constructor
  · intro st l h1 h2 h3 h4
    exact controlStep_no_colon h1 h2 h3 h4
  · intro pre post junk hpre hpost hjn h1 h2 h3 h4
    unfold extract_deb_control
    have hlines1 : splitNl (pyJoin (pystr "\n") (pre ++ junk :: post))
        = pre ++ junk :: post := by
      rw [splitNl_pyJoin _ (by simp)]
      apply flatten_map_splitNl
      intro l hl
      rcases List.mem_append.mp hl with hl | hl
      · exact hpre l hl
      · rcases List.mem_cons.mp hl with hl | hl
        · subst hl
          exact hjn
        · exact hpost l hl
    by_cases hpp : pre ++ post = []
    · obtain ⟨hpre0, hpost0⟩ := List.append_eq_nil.mp hpp
      subst hpre0
      subst hpost0
      have h01 : pyJoin (pystr "\n") ([] ++ junk :: []) = junk := rfl
      rw [h01, splitNl_no_nl hjn, List.foldl_cons,
          controlStep_no_colon h1 h2 h3 h4]
      rfl
    · have hlines2 : splitNl (pyJoin (pystr "\n") (pre ++ post)) = pre ++ post := by
        rw [splitNl_pyJoin _ hpp]
        apply flatten_map_splitNl
        intro l hl
        rcases List.mem_append.mp hl with hl | hl
        · exact hpre l hl
        · exact hpost l hl
      rw [hlines1, hlines2, List.foldl_append, List.foldl_cons,
          controlStep_no_colon h1 h2 h3 h4, ← List.foldl_append]

/-- Claim C10, witness: the garbage line between a field line and its
continuation line is skipped, and the continuation still extends the Package
field exactly as if the garbage line were absent. -/
theorem c10_witness :
    pyRstrip (pystr "garbage") ≠ [] ∧
    ':' ∉ pyRstrip (pystr "garbage") ∧
    extract_deb_control (pyJoin (pystr "\n")
        ([pystr "Package: foo"] ++ pystr "garbage" :: [pystr " cont"]))
      = extract_deb_control (pyJoin (pystr "\n") ([pystr "Package: foo"] ++ [pystr " cont"])) := by
  refine ⟨by decide, by decide, ?_⟩
  exact c10_skip_no_colon_line.2 [pystr "Package: foo"] [pystr " cont"] (pystr "garbage")
    (by decide) (by decide) (by decide) (by decide) (by decide) (by decide) (by decide)

end DebRepo
